import Mathlib

/-!
Verification development for the single-domain web crawler
(`ProfessionalWebCrawler` in `src/crawler.js`).

The crawler's URL handling is built on the WHATWG `URL` class.  We embed the
fragment of URL parsing/serialization that the crawler exercises:
`scheme://host[:port]/path[?query][#fragment]` for the special schemes
(`http`, `https`, `ftp`, `ws`, `wss`) and scheme-plus-opaque-path for all
other schemes (`mailto:`, `tel:`, `javascript:`, `data:` ...).  Userinfo
(`user:pass@host`) and IPv6 host brackets are outside the model: such
authorities are treated as unparseable.  Percent-encoding and dot-segment
resolution are not modelled (strings are kept verbatim); none of the claims'
inputs exercise them.

Machine numbers: JS numbers used by the crawler are counters (Nat) and
millisecond samples / averages, which we model exactly with ℚ.
-/

namespace Crawler

/-! ## Character-list utilities -/

/-- ASCII lower-casing, as performed by `String.prototype.toLowerCase` and by
the URL host/scheme parser, restricted to ASCII (all inputs in this
development are ASCII).  Implemented by table lookup so that facts about it
are provable by finite checks. -/
def lowerPairs : List (Char × Char) :=
  [('A', 'a'), ('B', 'b'), ('C', 'c'), ('D', 'd'), ('E', 'e'), ('F', 'f'),
   ('G', 'g'), ('H', 'h'), ('I', 'i'), ('J', 'j'), ('K', 'k'), ('L', 'l'),
   ('M', 'm'), ('N', 'n'), ('O', 'o'), ('P', 'p'), ('Q', 'q'), ('R', 'r'),
   ('S', 's'), ('T', 't'), ('U', 'u'), ('V', 'v'), ('W', 'w'), ('X', 'x'),
   ('Y', 'y'), ('Z', 'z')]

def lowerChar (c : Char) : Char :=
  match lowerPairs.find? (fun p => p.1 = c) with
  | some p => p.2
  | none => c

def lowerStr (s : String) : String := String.mk (s.data.map lowerChar)

/-- Take characters until one of `stops` is hit; returns (taken, rest),
where `rest` is empty or begins with a stop character. -/
def takeUntil (stops : List Char) : List Char → List Char × List Char
  | [] => ([], [])
  | c :: rest =>
    if c ∈ stops then ([], c :: rest)
    else
      let p := takeUntil stops rest
      (c :: p.1, p.2)

/-- Split a character list on a separator (JS `String.prototype.split` /
the `URLSearchParams` tokenizer on `&`). -/
def splitCh (sep : Char) (l : List Char) : List (List Char) := l.splitOn sep

/-- Join pieces with a separator (inverse of `splitCh`,
`Array.prototype.join` in JS). -/
def joinCh (sep : Char) (ps : List (List Char)) : List Char := [sep].intercalate ps

/-! ## URL record and parser (model of the WHATWG `URL` class) -/

structure URLRec where
  /-- lower-case scheme, without the trailing colon -/
  scheme : String
  /-- `true` for special schemes with an authority; `false` for
  scheme-with-opaque-path URLs such as `mailto:` -/
  authorityForm : Bool
  host : String
  port : Option String
  path : String
  query : Option String
  fragment : Option String
deriving DecidableEq, Repr

def specialSchemes : List String := ["http", "https", "ftp", "ws", "wss"]

def defaultPort (scheme : String) : Option String :=
  if scheme = "http" ∨ scheme = "ws" then some "80"
  else if scheme = "https" ∨ scheme = "wss" then some "443"
  else if scheme = "ftp" then some "21"
  else none

def isSchemeChar (c : Char) : Bool :=
  c.isAlpha || c.isDigit || c == '+' || c == '-' || c == '.'

def validSchemeChars : List Char → Bool
  | [] => false
  | c :: rest => c.isAlpha && (c :: rest).all isSchemeChar

/-- Characters that terminate or are forbidden inside a host. -/
def badHostChar (c : Char) : Bool :=
  [' ', '\t', '\n', '#', '/', '?', '@', ':', '[', ']', '\\', '%', '<', '>', '^', '|'].contains c

/-- Split `[?query][#fragment]` (input is empty or begins with `?` or `#`). -/
def parseQuFr (l : List Char) : Option (List Char) × Option (List Char) :=
  match l with
  | '?' :: rest =>
    let p := takeUntil ['#'] rest
    (some p.1, match p.2 with | '#' :: f => some f | _ => none)
  | '#' :: f => (none, some f)
  | _ => (none, none)

/-- Split `path[?query][#fragment]`. -/
def parsePathQuFr (l : List Char) : List Char × Option (List Char) × Option (List Char) :=
  let p := takeUntil ['?', '#'] l
  let qf := parseQuFr p.2
  (p.1, qf.1, qf.2)

/-- Port parsing inside the authority: empty or digits; the scheme's default
port is dropped. -/
def parsePortPart (scheme : String) (pr : List Char) : Option (Option String) :=
  match pr with
  | ':' :: pcs =>
    if pcs.isEmpty then some none
    else if pcs.all Char.isDigit then
      if defaultPort scheme == some (String.mk pcs) then some none
      else some (some (String.mk pcs))
    else none
  | _ => some none

/-- Authority-based parsing for special schemes (after the slashes have been
skipped): host, optional port, then path/query/fragment. -/
def parseAuthorityRest (scheme : String) (afterSlashes : List Char) : Option URLRec :=
  let ap := takeUntil ['/', '?', '#'] afterSlashes
  if ap.1.isEmpty || ap.1.contains '@' then none
  else
    let hp := takeUntil [':'] ap.1
    if hp.1.isEmpty || hp.1.any badHostChar then none
    else
      match parsePortPart scheme hp.2 with
      | none => none
      | some port =>
        let pqf := parsePathQuFr ap.2
        some { scheme := scheme, authorityForm := true,
               host := String.mk hp.1, port := port,
               path := String.mk (if pqf.1.isEmpty then ['/'] else pqf.1),
               query := pqf.2.1.map String.mk,
               fragment := pqf.2.2.map String.mk }

/-- Non-special scheme: the rest is an opaque path plus query/fragment. -/
def parseOpaque (scheme : String) (afterColon : List Char) : Option URLRec :=
  let pqf := parsePathQuFr afterColon
  some { scheme := scheme, authorityForm := false,
         host := "", port := none,
         path := String.mk pqf.1,
         query := pqf.2.1.map String.mk,
         fragment := pqf.2.2.map String.mk }

/-- Model of `new URL(input)` (absolute URLs only, as the crawler uses it). -/
def parseURL (s : String) : Option URLRec :=
  let sp := takeUntil [':'] s.data
  match sp.2 with
  | ':' :: afterColon =>
    if validSchemeChars sp.1 then
      let scheme := String.mk (sp.1.map lowerChar)
      if specialSchemes.contains scheme then
        -- special-authority parsing: any run of slashes after the colon is skipped
        parseAuthorityRest scheme (afterColon.dropWhile (· == '/'))
      else parseOpaque scheme afterColon
    else none
  | _ => none

/-- `?query` part of the serializer. -/
def quStr : Option String → String
  | none => ""
  | some q => "?" ++ q

/-- `#fragment` part of the serializer. -/
def frStr : Option String → String
  | none => ""
  | some f => "#" ++ f

/-- `:port` part of the serializer. -/
def portStr : Option String → String
  | none => ""
  | some p => ":" ++ p

/-- Model of the `URL.href` serializer. -/
def serializeURL (r : URLRec) : String :=
  if r.authorityForm then
    r.scheme ++ "://" ++ r.host ++ portStr r.port ++ r.path ++ quStr r.query ++ frStr r.fragment
  else
    r.scheme ++ ":" ++ r.path ++ quStr r.query ++ frStr r.fragment

/-! ## Query-parameter handling (`URLSearchParams`) -/

/-- One `key=value` piece: key is everything before the first `=`,
value everything after it (`URLSearchParams` semantics). -/
def parsePiece (p : List Char) : List Char × List Char :=
  let kv := takeUntil ['='] p
  (kv.1, match kv.2 with | '=' :: v => v | _ => [])

def parseQP (q : List Char) : List (List Char × List Char) :=
  ((splitCh '&' q).filter (· ≠ [])).map parsePiece

def serializeQP (ps : List (List Char × List Char)) : List Char :=
  joinCh '&' (ps.map (fun kv => kv.1 ++ '=' :: kv.2))

/-- `key.match(/^(utm_|fbclid|gclid|msclkid|trk_|ref|source)/i)` from
`normalizeUrl`. -/
def trackingKeyStarts : List (List Char) :=
  ["utm_".data, "fbclid".data, "gclid".data, "msclkid".data, "trk_".data,
   "ref".data, "source".data]

def isTrackingKey (k : List Char) : Bool :=
  trackingKeyStarts.any (fun p => p.isPrefixOf (k.map lowerChar))

/-- The query rewrite in `normalizeUrl`: skipped when the search string is
absent or empty (`if (urlObj.search)`); otherwise tracking parameters are
dropped and the remainder re-serialized; an empty result removes the query
(JS `search` setter with `""`). -/
def filterQuery (q : Option String) : Option String :=
  match q with
  | none => none
  | some q =>
    if q = "" then some ""
    else
      let kept := (parseQP q.data).filter (fun kv => !(isTrackingKey kv.1))
      let s := serializeQP kept
      if s.isEmpty then none else some (String.mk s)

/-! ## Path normalization in `normalizeUrl` -/

/-- `pathname.replace(/\/+/g, '/')`: collapse runs of slashes. -/
def collapseSlashes : List Char → List Char
  | [] => []
  | [c] => [c]
  | c :: d :: rest =>
    if c = '/' ∧ d = '/' then collapseSlashes (d :: rest)
    else c :: collapseSlashes (d :: rest)

/-- No two adjacent slashes (the invariant `collapseSlashes` establishes). -/
def noTwoSlashes : List Char → Bool
  | [] => true
  | [_] => true
  | c :: d :: rest => !(c == '/' && d == '/') && noTwoSlashes (d :: rest)

/-- `.replace(/\/$/, '')`: drop a single trailing slash. -/
def dropLastSlash : List Char → List Char
  | [] => []
  | [c] => if c = '/' then [] else [c]
  | c :: d :: rest => c :: dropLastSlash (d :: rest)

/-- The whole pathname rewrite, including the `|| '/'` fallback. -/
def normPathCs (p : List Char) : List Char :=
  let s := dropLastSlash (collapseSlashes p)
  if s.isEmpty then ['/'] else s

/-! ## `normalizeUrl` -/

/-- `hostname.toLowerCase().replace(/^www\./, '')` followed by the JS
`hostname` setter, which ignores an empty assignment (so a host that is
exactly `www.` is left unchanged). -/
def normHost (h : String) : String :=
  let stripped :=
    let lowered := h.data.map lowerChar
    if "www.".data.isPrefixOf lowered then lowered.drop 4 else lowered
  if stripped.isEmpty then h else String.mk stripped

/-- The field updates `normalizeUrl` performs on a parsed URL.  For URLs with
an opaque path the JS `hostname` and `pathname` setters are no-ops, so only
the fragment and query change. -/
def normRecord (r : URLRec) : URLRec :=
  if r.authorityForm then
    { r with host := normHost r.host, fragment := none,
             path := String.mk (normPathCs r.path.data),
             query := filterQuery r.query }
  else
    { r with fragment := none, query := filterQuery r.query }

/-- `normalizeUrl(url)` from `src/crawler.js`: total on strings; on parse
failure the `catch` returns the input unchanged. -/
def normalizeUrl (u : String) : String :=
  match parseURL u with
  | none => u
  | some r => serializeURL (normRecord r)

/-! ## Validity predicates -/

def excludedExtensions : List String :=
  [".pdf", ".jpg", ".jpeg", ".png", ".gif", ".zip"]

def protoStarts : List String :=
  ["mailto:", "tel:", "javascript:", "ftp:", "data:"]

/-- `isValidPageUrl(url)` from `src/crawler.js`. -/
def isValidPageUrl (u : String) : Bool :=
  match parseURL u with
  | none => false
  | some r =>
    let pathname := r.path.data.map lowerChar
    if excludedExtensions.any (fun e => e.data.isSuffixOf pathname) then false
    else if protoStarts.any (fun p => p.data.isPrefixOf (u.data.map lowerChar)) then false
    else r.scheme == "http" || r.scheme == "https"

/-- `isSameDomain(url, baseUrl)` from `src/crawler.js`: any parse failure
yields `false`. -/
def isSameDomain (u base : String) : Bool :=
  match parseURL u, parseURL base with
  | some a, some b => a.host == b.host
  | _, _ => false

/-- `isValidUrl(string)` from `src/crawler.js`. -/
def isValidUrl (s : String) : Bool := (parseURL s).isSome

/-! ## Well-formedness of parsed URL records

`wfURL` captures the invariants every record produced by `parseURL`
satisfies; they are exactly what is needed for the serializer to be a right
inverse of the parser. -/

def wfURL (r : URLRec) : Bool :=
  validSchemeChars r.scheme.data &&
  (r.scheme.data.map lowerChar == r.scheme.data) &&
  (match r.query with | none => true | some q => !(q.data.contains '#')) &&
  (if r.authorityForm then
    specialSchemes.contains r.scheme &&
    !r.host.data.isEmpty && !(r.host.data.any badHostChar) &&
    (match r.port with
     | none => true
     | some p => !p.data.isEmpty && p.data.all Char.isDigit &&
                 !(defaultPort r.scheme == some p)) &&
    (match r.path.data with | '/' :: _ => true | _ => false) &&
    !(r.path.data.any (fun c => c == '?' || c == '#'))
  else
    !(specialSchemes.contains r.scheme) &&
    r.host == "" && r.port == none &&
    !(r.path.data.any (fun c => c == '?' || c == '#')))

/-- Inputs on which canonicalization is idempotent: every unparseable input,
and every parseable one whose canonical host does not still begin with
`www.` (i.e. hosts other than those with a doubled `www.` label). -/
def canonIdemOK (u : String) : Bool :=
  match parseURL u with
  | none => true
  | some r => !("www.".data.isPrefixOf (normHost r.host).data)

/-! ## Crawler engine state (`ProfessionalWebCrawler` fields) -/

structure CrawlState where
  visitedUrls : Finset String
  urlsToCrawl : Finset String
  failedUrls : Finset String
  isCrawling : Bool
  isPaused : Bool
  totalDiscovered : ℕ
  successfullyCrawled : ℕ
  failedCount : ℕ
  duplicates : ℕ
  external : ℕ
  /-- `config.maxPages` -/
  maxPages : ℕ
  /-- `config.delay` -/
  delayMs : ℕ
  /-- `timeTracking.pageTimes`, most recent last -/
  pageTimes : List ℚ
  /-- `timeTracking.averageTimePerPage` -/
  averageTimePerPage : ℚ
deriving DecidableEq

/-- The constructor's initial state. -/
def initState : CrawlState :=
  { visitedUrls := ∅, urlsToCrawl := ∅, failedUrls := ∅,
    isCrawling := false, isPaused := false,
    totalDiscovered := 0, successfullyCrawled := 0, failedCount := 0,
    duplicates := 0, external := 0,
    maxPages := 500, delayMs := 200,
    pageTimes := [], averageTimePerPage := 0 }

def excludedPaths : List String :=
  ["/admin", "/login", "/logout", "/register", "/api/"]

/-- JS `String.prototype.includes`: contiguous substring test. -/
def containsSub (pat : List Char) : List Char → Bool
  | [] => pat.isEmpty
  | c :: rest => pat.isPrefixOf (c :: rest) || containsSub pat rest

/-- `shouldCrawlUrl(url)` from `src/crawler.js`: page-URL validity, then the
budget admission check against `visitedUrls.size`, then the excluded-path
substring test on the lower-cased URL. -/
def shouldCrawlUrl (st : CrawlState) (url : String) : Bool :=
  isValidPageUrl url
    && decide (st.visitedUrls.card < st.maxPages)
    && !(excludedPaths.any (fun p => containsSub p.data (url.data.map lowerChar)))

/-- One iteration of the `forEach` body of `processNewUrls`: the offer of a
single candidate link to the frontier. -/
def offerUrl (st : CrawlState) (baseUrl url : String) : CrawlState :=
  let st1 := { st with totalDiscovered := st.totalDiscovered + 1 }
  let n := normalizeUrl url
  if isSameDomain n baseUrl then
    if n ∈ st1.visitedUrls ∨ n ∈ st1.urlsToCrawl ∨ n ∈ st1.failedUrls then
      { st1 with duplicates := st1.duplicates + 1 }
    else if shouldCrawlUrl st1 n then
      { st1 with urlsToCrawl := insert n st1.urlsToCrawl }
    else st1
  else
    { st1 with external := st1.external + 1 }

/-- `processNewUrls(newUrls, baseUrl)` from `src/crawler.js`: offer each
candidate in order. -/
def processNewUrls : CrawlState → String → List String → CrawlState
  | st, _, [] => st
  | st, baseUrl, u :: rest => processNewUrls (offerUrl st baseUrl u) baseUrl rest

/-- Result of the abstract fetch capability used by `crawlSinglePage`: on
success it yields the final URL and the links extracted from the content;
any fetch/extraction exception lands in the `catch` branch. -/
inductive FetchOutcome where
  | success (finalUrl : String) (links : List String)
  | failure
deriving DecidableEq

/-- `crawlSinglePage(url, baseUrl)` from `src/crawler.js`, with the fetch
pipeline abstracted into a `FetchOutcome`. -/
def crawlSinglePage (st : CrawlState) (url baseUrl : String) (oc : FetchOutcome) : CrawlState :=
  if url ∈ st.visitedUrls then st
  else
    let st1 := { st with visitedUrls := insert url st.visitedUrls }
    match oc with
    | .success finalUrl links =>
      let st2 :=
        if finalUrl ≠ url then { st1 with duplicates := st1.duplicates + 1 } else st1
      let st3 := { st2 with successfullyCrawled := st2.successfullyCrawled + 1 }
      processNewUrls st3 baseUrl links
    | .failure =>
      { st1 with failedUrls := insert url st1.failedUrls,
                 failedCount := st1.failedCount + 1 }

/-- `recordPageTime(pageTime)` from `src/crawler.js`. -/
def recordPageTime (st : CrawlState) (t : ℚ) : CrawlState :=
  let times0 := st.pageTimes ++ [t]
  let times := if 50 < times0.length then times0.tail else times0
  { st with pageTimes := times,
            averageTimePerPage := times.sum / (times.length : ℚ) }

inductive EstStatus where
  /-- `'расчет...'`: fewer than 5 samples -/
  | warming
  /-- `'завершается...'`: no pages remaining -/
  | finishing
  /-- a numeric estimate is produced -/
  | estimate
deriving DecidableEq

/-- `getTimeEstimate()` from `src/crawler.js`: the returned
`estimatedTime` in milliseconds together with which branch produced it. -/
def getTimeEstimate (st : CrawlState) : ℚ × EstStatus :=
  if st.pageTimes.length < 5 then (0, .warming)
  else
    let processed : ℤ := st.visitedUrls.card + st.failedUrls.card
    let remaining : ℤ := min (st.urlsToCrawl.card : ℤ) ((st.maxPages : ℤ) - processed)
    if remaining ≤ 0 then (0, .finishing)
    else ((remaining : ℚ) * st.averageTimePerPage, .estimate)

/-- `resetState()` from `src/crawler.js` (the `timeTracking` reset included). -/
def resetState (st : CrawlState) : CrawlState :=
  { st with visitedUrls := ∅, urlsToCrawl := ∅, failedUrls := ∅,
            totalDiscovered := 0, successfullyCrawled := 0, failedCount := 0,
            duplicates := 0, external := 0,
            pageTimes := [], averageTimePerPage := 0 }

/-- The synchronous prefix of `startCrawling(startUrl)`: the seed validation
(`throw` modelled as `none`), the state reset, the `isCrawling`/`isPaused`
flags, the time-tracking re-initialization, and seeding the queue with the
normalized seed.  The subsequent loop is modelled by `CrawlReach`. -/
def startCrawling (st : CrawlState) (startUrl : String) : Option CrawlState :=
  if !(isValidUrl startUrl) then none
  else
    let st1 := resetState st
    let st2 := { st1 with isCrawling := true, isPaused := false,
                          pageTimes := [], averageTimePerPage := 0 }
    some { st2 with urlsToCrawl := insert (normalizeUrl startUrl) st2.urlsToCrawl }

/-- States reachable by iterations of the `crawlAllPages` loop.  An
iteration runs only while the queue is non-empty, `isCrawling` holds and
`visitedUrls.size < config.maxPages`; it removes one queued URL, runs
`crawlSinglePage` on it, and records the page time.  The popped URL is
existentially any member of the queue (the JS set's insertion order is one
such choice). -/
inductive CrawlReach (baseUrl : String) : CrawlState → CrawlState → Prop where
  | refl (s : CrawlState) : CrawlReach baseUrl s s
  | step (s t : CrawlState) (u : String) (oc : FetchOutcome) (pt : ℚ)
      (hmem : u ∈ s.urlsToCrawl)
      (hrun : s.isCrawling = true)
      (hbudget : s.visitedUrls.card < s.maxPages)
      (hrest : CrawlReach baseUrl
        (recordPageTime
          (crawlSinglePage { s with urlsToCrawl := s.urlsToCrawl.erase u } u baseUrl oc) pt) t) :
      CrawlReach baseUrl s t

/-! ## Sample states used by the witnesses -/

def seedBase : String := "https://ex.com/"

def runState : CrawlState := { initState with isCrawling := true, maxPages := 10 }

def budgetStart : CrawlState := { initState with maxPages := 3 }

def budgetStarted : CrawlState :=
  { initState with maxPages := 3, isCrawling := true, urlsToCrawl := {"https://ex.com/"} }

def queuedOne : CrawlState :=
  { runState with urlsToCrawl := {"https://ex.com/page"} }

def etaState : CrawlState :=
  { runState with pageTimes := [1, 2, 3, 4, 5], urlsToCrawl := {"a", "b"},
                  averageTimePerPage := 3 }

def ftpRec : URLRec :=
  { scheme := "ftp", authorityForm := true, host := "ex.com", port := none,
    path := "/x", query := none, fragment := none }

def recState : CrawlState := { runState with pageTimes := [2, 4] }

/-! ## Frame lemmas for the engine operations -/

theorem offerUrl_visitedUrls (st : CrawlState) (b u : String) :
    (offerUrl st b u).visitedUrls = st.visitedUrls := by
  unfold offerUrl
  dsimp only
  repeat' split
  all_goals rfl

theorem offerUrl_failedUrls (st : CrawlState) (b u : String) :
    (offerUrl st b u).failedUrls = st.failedUrls := by
  unfold offerUrl
  dsimp only
  repeat' split
  all_goals rfl

theorem offerUrl_maxPages (st : CrawlState) (b u : String) :
    (offerUrl st b u).maxPages = st.maxPages := by
  unfold offerUrl
  dsimp only
  repeat' split
  all_goals rfl

theorem processNewUrls_visitedUrls (b : String) (urls : List String) :
    ∀ st : CrawlState, (processNewUrls st b urls).visitedUrls = st.visitedUrls := by
  induction urls with
  | nil => intro st; rfl
  | cons u rest ih =>
    intro st
    show (processNewUrls (offerUrl st b u) b rest).visitedUrls = st.visitedUrls
    rw [ih, offerUrl_visitedUrls]

theorem processNewUrls_failedUrls (b : String) (urls : List String) :
    ∀ st : CrawlState, (processNewUrls st b urls).failedUrls = st.failedUrls := by
  induction urls with
  | nil => intro st; rfl
  | cons u rest ih =>
    intro st
    show (processNewUrls (offerUrl st b u) b rest).failedUrls = st.failedUrls
    rw [ih, offerUrl_failedUrls]

theorem processNewUrls_maxPages (b : String) (urls : List String) :
    ∀ st : CrawlState, (processNewUrls st b urls).maxPages = st.maxPages := by
  induction urls with
  | nil => intro st; rfl
  | cons u rest ih =>
    intro st
    show (processNewUrls (offerUrl st b u) b rest).maxPages = st.maxPages
    rw [ih, offerUrl_maxPages]

theorem crawlSinglePage_visitedUrls (st : CrawlState) (u b : String) (oc : FetchOutcome) :
    (crawlSinglePage st u b oc).visitedUrls =
      if u ∈ st.visitedUrls then st.visitedUrls else insert u st.visitedUrls := by
  unfold crawlSinglePage
  split
  · simp [*]
  · cases oc with
    | success fu links =>
      simp only [processNewUrls_visitedUrls]
      split <;> simp [*]
    | failure => simp [*]

theorem crawlSinglePage_maxPages (st : CrawlState) (u b : String) (oc : FetchOutcome) :
    (crawlSinglePage st u b oc).maxPages = st.maxPages := by
  unfold crawlSinglePage
  split
  · rfl
  · cases oc with
    | success fu links =>
      simp only [processNewUrls_maxPages]
      split <;> rfl
    | failure => rfl

theorem recordPageTime_visitedUrls (st : CrawlState) (t : ℚ) :
    (recordPageTime st t).visitedUrls = st.visitedUrls := rfl

theorem recordPageTime_maxPages (st : CrawlState) (t : ℚ) :
    (recordPageTime st t).maxPages = st.maxPages := rfl

/-- Loop invariant: along the crawl loop the budget bound on `visitedUrls`
is preserved and `config.maxPages` never changes. -/
theorem reach_budget (b : String) {s t : CrawlState} (h : CrawlReach b s t) :
    s.visitedUrls.card ≤ s.maxPages →
      t.visitedUrls.card ≤ t.maxPages ∧ t.maxPages = s.maxPages := by
  induction h with
  | refl s => exact fun hc => ⟨hc, rfl⟩
  | step s t u oc pt hmem hrun hbudget hrest ih =>
    intro _
    have hvis :
        (recordPageTime
          (crawlSinglePage { s with urlsToCrawl := s.urlsToCrawl.erase u } u b oc) pt).visitedUrls =
          if u ∈ s.visitedUrls then s.visitedUrls else insert u s.visitedUrls := by
      rw [recordPageTime_visitedUrls, crawlSinglePage_visitedUrls]
    have hmax :
        (recordPageTime
          (crawlSinglePage { s with urlsToCrawl := s.urlsToCrawl.erase u } u b oc) pt).maxPages =
          s.maxPages := by
      rw [recordPageTime_maxPages, crawlSinglePage_maxPages]
    have hcard :
        (recordPageTime
          (crawlSinglePage { s with urlsToCrawl := s.urlsToCrawl.erase u } u b oc) pt).visitedUrls.card ≤
          s.maxPages := by
      rw [hvis]
      split
      · exact le_of_lt hbudget
      · exact le_trans (Finset.card_insert_le u s.visitedUrls) hbudget
    obtain ⟨h1, h2⟩ := ih (by rw [hmax]; exact hcard)
    exact ⟨h1, by rw [h2, hmax]⟩

theorem crawlSinglePage_failedUrls (st : CrawlState) (u b : String) (oc : FetchOutcome) :
    (crawlSinglePage st u b oc).failedUrls =
      if u ∈ st.visitedUrls then st.failedUrls
      else match oc with
           | .failure => insert u st.failedUrls
           | .success _ _ => st.failedUrls := by
  unfold crawlSinglePage
  split
  · simp [*]
  · cases oc with
    | success fu links =>
      simp only [processNewUrls_failedUrls]
      split <;> simp [*]
    | failure => simp [*]

theorem crawlSinglePage_of_visited (st : CrawlState) (u b : String) (oc : FetchOutcome)
    (h : u ∈ st.visitedUrls) : crawlSinglePage st u b oc = st := by
  unfold crawlSinglePage
  rw [if_pos h]

/-! ## Claim C1 -/

/-- Claim C1, counterexample: processing `https://ex.com/a` with a failing
fetch leaves the URL in `visitedUrls` AND in `failedUrls` — the claim's
"never both" is false on the code, because `crawlSinglePage` adds the URL to
`visitedUrls` before fetching and never removes it in the `catch` branch. -/
theorem terminal_exclusive_cex :
    "https://ex.com/a" ∈
      (crawlSinglePage runState "https://ex.com/a" seedBase .failure).visitedUrls ∧
    "https://ex.com/a" ∈
      (crawlSinglePage runState "https://ex.com/a" seedBase .failure).failedUrls := by
  decide

/-- Claim C1, amended: a URL processed for the first time always ends up in
`visitedUrls`; it additionally ends up in `failedUrls` exactly when the fetch
failed; and re-processing it is a no-op, so no URL is processed more than
once in the same run. -/
theorem crawlSinglePage_terminal (st : CrawlState) (u b : String) (oc : FetchOutcome)
    (hv : u ∉ st.visitedUrls) (hf : u ∉ st.failedUrls) :
    u ∈ (crawlSinglePage st u b oc).visitedUrls ∧
    (u ∈ (crawlSinglePage st u b oc).failedUrls ↔ oc = .failure) ∧
    (∀ oc2 : FetchOutcome,
      crawlSinglePage (crawlSinglePage st u b oc) u b oc2 = crawlSinglePage st u b oc) := by
  have hvis := crawlSinglePage_visitedUrls st u b oc
  rw [if_neg hv] at hvis
  have hmem : u ∈ (crawlSinglePage st u b oc).visitedUrls := by
    rw [hvis]; exact Finset.mem_insert_self u _
  have hfail := crawlSinglePage_failedUrls st u b oc
  rw [if_neg hv] at hfail
  refine ⟨hmem, ?_, fun oc2 => crawlSinglePage_of_visited _ u b oc2 hmem⟩
  rw [hfail]
  cases oc with
  | success fu links => simp [hf]
  | failure => simp

/-- Witness for the amended C1 at a concrete state and URL. -/
theorem crawlSinglePage_terminal_witness :
    "https://ex.com/b" ∈
      (crawlSinglePage runState "https://ex.com/b" seedBase .failure).visitedUrls ∧
    ("https://ex.com/b" ∈
      (crawlSinglePage runState "https://ex.com/b" seedBase .failure).failedUrls ↔
      FetchOutcome.failure = FetchOutcome.failure) := by
  have h := crawlSinglePage_terminal runState "https://ex.com/b" seedBase .failure
    (by decide) (by decide)
  exact ⟨h.1, h.2.1⟩

/-! ## Claim C2 -/

/-- Claim C2: a run started with `maxPages = N` never has more than `N` URLs
in `visitedUrls`, at every state reachable by the `crawlAllPages` loop. -/
theorem budget_respected (st : CrawlState) (seed baseUrl : String) (s1 t : CrawlState)
    (hstart : startCrawling st seed = some s1) (hreach : CrawlReach baseUrl s1 t) :
    t.visitedUrls.card ≤ st.maxPages := by
  have hs1 : s1.visitedUrls = ∅ ∧ s1.maxPages = st.maxPages := by
    unfold startCrawling at hstart
    split at hstart
    · exact absurd hstart (by simp)
    · have h := Option.some.inj hstart
      rw [← h]
      exact ⟨rfl, rfl⟩
  obtain ⟨hv, hm⟩ := hs1
  have h := reach_budget baseUrl hreach (by rw [hv]; simp)
  rw [← hm, ← h.2]
  exact h.1

/-- Witness for C2: the bound holds at the start state of a concrete run
with `maxPages = 3`. -/
theorem budget_respected_witness : budgetStarted.visitedUrls.card ≤ budgetStart.maxPages := by
  exact budget_respected budgetStart "https://ex.com/" seedBase budgetStarted budgetStarted
    (by decide) (CrawlReach.refl _)

/-! ## Claim C3 -/

/-- Claim C3, counterexample: the candidate `https://other.com/x.pdf` is
rejected by canonicalization-validity (excluded extension), so per the claim
it should be dropped with no stat beyond `discovered`; the code instead
bumps `external`, because `processNewUrls` tests the domain before any
validity check. -/
theorem offer_order_cex :
    isValidPageUrl (normalizeUrl "https://other.com/x.pdf") = false ∧
    (offerUrl runState seedBase "https://other.com/x.pdf").external =
      runState.external + 1 ∧
    offerUrl runState seedBase "https://other.com/x.pdf" ≠
      { runState with totalDiscovered := runState.totalDiscovered + 1 } := by
  decide

/-- Claim C3, amended: `discovered` is always incremented; the checks then
run in the code's order — first domain scoping (`external` and drop when the
normalized URL's host differs from the seed's or either fails to parse),
then dedup against the three sets (`duplicate` and drop), and only then the
admission check `shouldCrawlUrl` (page-URL validity, the `visited` budget,
excluded paths): failing it drops the URL with no further stat; passing it
inserts the normalized URL into `queued`. -/
theorem offerUrl_spec (st : CrawlState) (b u : String) :
    (offerUrl st b u).totalDiscovered = st.totalDiscovered + 1 ∧
    (isSameDomain (normalizeUrl u) b = false →
      offerUrl st b u =
        { st with totalDiscovered := st.totalDiscovered + 1,
                  external := st.external + 1 }) ∧
    (isSameDomain (normalizeUrl u) b = true →
      (normalizeUrl u ∈ st.visitedUrls ∨ normalizeUrl u ∈ st.urlsToCrawl ∨
        normalizeUrl u ∈ st.failedUrls) →
      offerUrl st b u =
        { st with totalDiscovered := st.totalDiscovered + 1,
                  duplicates := st.duplicates + 1 }) ∧
    (isSameDomain (normalizeUrl u) b = true →
      ¬(normalizeUrl u ∈ st.visitedUrls ∨ normalizeUrl u ∈ st.urlsToCrawl ∨
        normalizeUrl u ∈ st.failedUrls) →
      shouldCrawlUrl { st with totalDiscovered := st.totalDiscovered + 1 }
        (normalizeUrl u) = true →
      offerUrl st b u =
        { st with totalDiscovered := st.totalDiscovered + 1,
                  urlsToCrawl := insert (normalizeUrl u) st.urlsToCrawl }) ∧
    (isSameDomain (normalizeUrl u) b = true →
      ¬(normalizeUrl u ∈ st.visitedUrls ∨ normalizeUrl u ∈ st.urlsToCrawl ∨
        normalizeUrl u ∈ st.failedUrls) →
      shouldCrawlUrl { st with totalDiscovered := st.totalDiscovered + 1 }
        (normalizeUrl u) = false →
      offerUrl st b u = { st with totalDiscovered := st.totalDiscovered + 1 }) := by
  refine ⟨?_, ?_, ?_, ?_, ?_⟩
  · unfold offerUrl
    dsimp only
    repeat' split
    all_goals rfl
  · intro h
    unfold offerUrl
    dsimp only
    rw [h]
    simp
  · intro h hm
    unfold offerUrl
    dsimp only
    rw [h]
    simp only [if_true]
    rw [if_pos hm]
  · intro h hm hs
    unfold offerUrl
    dsimp only
    rw [h]
    simp only [if_true]
    rw [if_neg hm, if_pos hs]
  · intro h hm hs
    unfold offerUrl
    dsimp only
    rw [h]
    simp only [if_true]
    rw [if_neg hm, if_neg (by rw [hs]; exact Bool.false_ne_true)]

/-- Witness for the amended C3: a second offer of an already-queued page
(under a different spelling) takes the duplicate branch. -/
theorem offerUrl_spec_witness :
    offerUrl queuedOne seedBase "https://EX.com/page/" =
      { queuedOne with totalDiscovered := queuedOne.totalDiscovered + 1,
                       duplicates := queuedOne.duplicates + 1 } := by
  exact (offerUrl_spec queuedOne seedBase "https://EX.com/page/").2.2.1
    (by decide) (by decide)

/-! ## Claim C4 -/

/-- Claim C4: the canonicalizer's validity gate (`isValidPageUrl`) rejects
every string that does not parse as an absolute URL, and every parseable URL
whose scheme is neither `http` nor `https`. -/
theorem canonicalizer_rejects (u : String) :
    (parseURL u = none → isValidPageUrl u = false) ∧
    (∀ r : URLRec, parseURL u = some r → r.scheme ≠ "http" → r.scheme ≠ "https" →
      isValidPageUrl u = false) := by
  constructor
  · intro h
    unfold isValidPageUrl
    rw [h]
  · intro r hr h1 h2
    unfold isValidPageUrl
    rw [hr]
    dsimp only
    split
    · rfl
    · split
      · rfl
      · simp [h1, h2]

/-- Witness for C4 at the concrete non-HTTP URL `ftp://ex.com/x`. -/
theorem canonicalizer_rejects_witness : isValidPageUrl "ftp://ex.com/x" = false := by
  exact (canonicalizer_rejects "ftp://ex.com/x").2 ftpRec (by decide) (by decide) (by decide)

/-! ## Claim C6 -/

/- The C6 theorems: see `canonical_equiv` and its companions at the end of
the file (they build on the round-trip machinery developed for C5). -/

/-! ## Claim C7 -/

/-- Claim C7, counterexample: the seed `ftp://ex.com/x` is rejected by the
canonicalizer's validity gate, yet `startCrawling` accepts it (it only
checks parseability via `isValidUrl`), modifies the crawl state and enters
the Running state — so "fails iff the seed does not canonicalize" is false
on the code. -/
theorem start_seed_cex :
    isValidPageUrl "ftp://ex.com/x" = false ∧
    (startCrawling initState "ftp://ex.com/x").isSome = true ∧
    Option.map CrawlState.isCrawling (startCrawling initState "ftp://ex.com/x") =
      some true := by
  decide

/-- Claim C7, amended: `startCrawling` fails exactly when the seed is not
parseable as a URL; on every parseable seed it resets the three URL sets,
all stats counters and the time tracker, seeds the queue with exactly the
normalized seed, and enters the Running state, keeping the configuration. -/
theorem startCrawling_spec (st : CrawlState) (seed : String) :
    (startCrawling st seed = none ↔ parseURL seed = none) ∧
    (∀ s1 : CrawlState, startCrawling st seed = some s1 →
      s1.visitedUrls = ∅ ∧ s1.failedUrls = ∅ ∧
      s1.urlsToCrawl = {normalizeUrl seed} ∧
      s1.totalDiscovered = 0 ∧ s1.successfullyCrawled = 0 ∧ s1.failedCount = 0 ∧
      s1.duplicates = 0 ∧ s1.external = 0 ∧
      s1.pageTimes = [] ∧ s1.averageTimePerPage = 0 ∧
      s1.isCrawling = true ∧ s1.isPaused = false ∧
      s1.maxPages = st.maxPages ∧ s1.delayMs = st.delayMs) := by
  unfold startCrawling isValidUrl
  cases h : parseURL seed with
  | none =>
    constructor
    · simp
    · intro s1 hs1
      simp at hs1
  | some r =>
    constructor
    · simp
    · intro s1 hs1
      simp only [Option.isSome_some, Bool.not_true, Bool.false_eq_true, if_false,
        Option.some.injEq] at hs1
      rw [← hs1]
      refine ⟨rfl, rfl, rfl, rfl, rfl, rfl, rfl, rfl, rfl, rfl, rfl, rfl, rfl, rfl⟩

/-- Witness for the amended C7: starting a concrete run from
`budgetStart` with the seed `https://ex.com/`. -/
theorem startCrawling_spec_witness :
    budgetStarted.visitedUrls = ∅ ∧ budgetStarted.failedUrls = ∅ ∧
    budgetStarted.urlsToCrawl = {normalizeUrl seedBase} ∧
    budgetStarted.totalDiscovered = 0 ∧ budgetStarted.successfullyCrawled = 0 ∧
    budgetStarted.failedCount = 0 ∧
    budgetStarted.duplicates = 0 ∧ budgetStarted.external = 0 ∧
    budgetStarted.pageTimes = [] ∧ budgetStarted.averageTimePerPage = 0 ∧
    budgetStarted.isCrawling = true ∧ budgetStarted.isPaused = false ∧
    budgetStarted.maxPages = budgetStart.maxPages ∧
    budgetStarted.delayMs = budgetStart.delayMs := by
  exact (startCrawling_spec budgetStart seedBase).2 budgetStarted (by decide)

/-! ## Claim C8 -/

/-- Claim C8: the ETA estimator returns 0 with the warming-up status below 5
samples; from 5 samples on it returns `pagesRemaining * average` with
`pagesRemaining = min(queuedCount, budget - processedCount)`, or 0 with the
finishing status when that value is ≤ 0. -/
theorem eta_spec (st : CrawlState) :
    (st.pageTimes.length < 5 → getTimeEstimate st = (0, EstStatus.warming)) ∧
    (5 ≤ st.pageTimes.length →
      (min (st.urlsToCrawl.card : ℤ)
          ((st.maxPages : ℤ) - (st.visitedUrls.card + st.failedUrls.card)) ≤ 0 →
        getTimeEstimate st = (0, EstStatus.finishing)) ∧
      (0 < min (st.urlsToCrawl.card : ℤ)
          ((st.maxPages : ℤ) - (st.visitedUrls.card + st.failedUrls.card)) →
        getTimeEstimate st =
          (((min (st.urlsToCrawl.card : ℤ)
              ((st.maxPages : ℤ) - (st.visitedUrls.card + st.failedUrls.card)) : ℤ) : ℚ) *
            st.averageTimePerPage, EstStatus.estimate))) := by
  refine ⟨?_, ?_⟩
  · intro h
    unfold getTimeEstimate
    rw [if_pos h]
  · intro h
    constructor
    · intro hr
      unfold getTimeEstimate
      rw [if_neg (not_lt.mpr h)]
      dsimp only
      rw [if_pos hr]
    · intro hr
      unfold getTimeEstimate
      rw [if_neg (not_lt.mpr h)]
      dsimp only
      rw [if_neg (not_le.mpr hr)]

/-- Witness for C8: with 5 samples, 2 queued pages, no processed pages,
budget 10 and average 3 ms, the estimate is 6 ms. -/
theorem eta_spec_witness : getTimeEstimate etaState = (6, EstStatus.estimate) := by
  have h := ((eta_spec etaState).2 (by decide)).2 (by decide)
  have h2 : min ((etaState.urlsToCrawl.card : ℤ))
      ((etaState.maxPages : ℤ) - (etaState.visitedUrls.card + etaState.failedUrls.card)) = 2 := by
    decide
  have h3 : etaState.averageTimePerPage = 3 := rfl
  rw [h, h2, h3]
  simp only [Prod.mk.injEq]
  norm_num

/-! ## Claim C9 -/

/-- Claim C9: `recordPageTime` appends the sample, evicts the oldest sample
once the history would exceed 50 entries (so the length never exceeds 50 and
the retained samples are the most recent in FIFO order), and recomputes the
average as `sum(history)/len(history)`. -/
theorem record_spec (st : CrawlState) (t : ℚ) (h : st.pageTimes.length ≤ 50) :
    (recordPageTime st t).pageTimes.length ≤ 50 ∧
    (st.pageTimes.length < 50 →
      (recordPageTime st t).pageTimes = st.pageTimes ++ [t]) ∧
    (st.pageTimes.length = 50 →
      (recordPageTime st t).pageTimes = st.pageTimes.tail ++ [t]) ∧
    (recordPageTime st t).averageTimePerPage =
      (recordPageTime st t).pageTimes.sum / ((recordPageTime st t).pageTimes.length : ℚ) := by
  unfold recordPageTime
  dsimp only
  by_cases h50 : st.pageTimes.length = 50
  · rw [if_pos (by simp [h50])]
    obtain ⟨a, as, hl⟩ : ∃ a as, st.pageTimes = a :: as := by
      cases hl : st.pageTimes with
      | nil => rw [hl] at h50; simp at h50
      | cons a as => exact ⟨a, as, rfl⟩
    have has : as.length = 49 := by
      rw [hl] at h50
      simpa using h50
    refine ⟨?_, fun hlt => absurd h50 (by omega), fun _ => ?_, rfl⟩
    · rw [hl]
      simp [has]
    · rw [hl]
      simp
  · have hlt : st.pageTimes.length < 50 := lt_of_le_of_ne h h50
    rw [if_neg (by simp only [List.length_append, List.length_cons, List.length_nil]; omega)]
    refine ⟨?_, fun _ => rfl, fun he => absurd he h50, rfl⟩
    simp only [List.length_append, List.length_cons, List.length_nil]
    omega

/-- Witness for C9 at a concrete two-sample history. -/
theorem record_spec_witness :
    (recordPageTime recState 6).pageTimes = recState.pageTimes ++ [6] ∧
    (recordPageTime recState 6).pageTimes.length ≤ 50 := by
  have h := record_spec recState 6 (by decide)
  exact ⟨h.2.1 (by decide), h.1⟩

/-! ## Claim C10 -/

/-- Claim C10: `normalizeUrl` is total — on a string that does not parse as
a URL it returns the input unchanged — and that unparsed string then flows
into the frontier's domain check, where the failed parse sends it to the
`external` branch of `processNewUrls`. -/
theorem normalize_total_on_unparseable (st : CrawlState) (b u : String)
    (h : parseURL u = none) :
    normalizeUrl u = u ∧
    offerUrl st b u =
      { st with totalDiscovered := st.totalDiscovered + 1,
                external := st.external + 1 } := by
  have hn : normalizeUrl u = u := by unfold normalizeUrl; rw [h]
  refine ⟨hn, ?_⟩
  have hsd : isSameDomain (normalizeUrl u) b = false := by
    rw [hn]
    unfold isSameDomain
    rw [h]
  unfold offerUrl
  dsimp only
  rw [hsd]
  simp only [Bool.false_eq_true, if_false]

/-- Witness for C10 at the concrete unparseable input `not a url`. -/
theorem normalize_total_witness :
    normalizeUrl "not a url" = "not a url" ∧
    offerUrl runState seedBase "not a url" =
      { runState with totalDiscovered := runState.totalDiscovered + 1,
                      external := runState.external + 1 } := by
  exact normalize_total_on_unparseable runState seedBase "not a url" (by decide)

/-! ## Claim C5: supporting lemmas on `takeUntil`, `splitCh`, `joinCh` -/

theorem takeUntil_fst_no_stops (stops : List Char) (l : List Char) :
    ∀ c ∈ (takeUntil stops l).1, c ∉ stops := by
  induction l with
  | nil => intro c hc; simp [takeUntil] at hc
  | cons a rest ih =>
    intro c hc
    by_cases ha : a ∈ stops
    · simp [takeUntil, ha] at hc
    · simp [takeUntil, ha] at hc
      rcases hc with rfl | hc
      · exact ha
      · exact ih c hc

theorem takeUntil_fst_append_snd (stops : List Char) (l : List Char) :
    (takeUntil stops l).1 ++ (takeUntil stops l).2 = l := by
  induction l with
  | nil => rfl
  | cons a rest ih =>
    by_cases ha : a ∈ stops
    · simp [takeUntil, ha]
    · simp [takeUntil, ha, ih]

theorem takeUntil_snd_shape (stops : List Char) (l : List Char) :
    (takeUntil stops l).2 = [] ∨
      ∃ c rest, (takeUntil stops l).2 = c :: rest ∧ c ∈ stops := by
  induction l with
  | nil => exact Or.inl rfl
  | cons a rest ih =>
    by_cases ha : a ∈ stops
    · exact Or.inr ⟨a, rest, by simp [takeUntil, ha], ha⟩
    · simpa [takeUntil, ha] using ih

theorem takeUntil_of_clean_stop (stops : List Char) (pre : List Char) (c : Char)
    (post : List Char) (hpre : ∀ x ∈ pre, x ∉ stops) (hc : c ∈ stops) :
    takeUntil stops (pre ++ c :: post) = (pre, c :: post) := by
  induction pre with
  | nil => simp [takeUntil, hc]
  | cons a as ih =>
    have ha : a ∉ stops := hpre a (by simp)
    have := ih (fun x hx => hpre x (by simp [hx]))
    simp [takeUntil, ha, this]

theorem takeUntil_of_clean (stops : List Char) (pre : List Char)
    (hpre : ∀ x ∈ pre, x ∉ stops) :
    takeUntil stops pre = (pre, []) := by
  induction pre with
  | nil => rfl
  | cons a as ih =>
    have ha : a ∉ stops := hpre a (by simp)
    have := ih (fun x hx => hpre x (by simp [hx]))
    simp [takeUntil, ha, this]

theorem joinCh_nil (sep : Char) : joinCh sep [] = [] := rfl

theorem joinCh_single (sep : Char) (p : List Char) : joinCh sep [p] = p := by
  simp [joinCh, List.intercalate]

theorem joinCh_cons_cons (sep : Char) (p q : List Char) (rs : List (List Char)) :
    joinCh sep (p :: q :: rs) = p ++ sep :: joinCh sep (q :: rs) := by
  simp [joinCh, List.intercalate, List.intersperse]

theorem splitCh_no_sep (sep : Char) (l : List Char) :
    ∀ p ∈ splitCh sep l, sep ∉ p := by
  induction l with
  | nil =>
    intro p hp
    simp only [splitCh, List.splitOn_nil, List.mem_singleton] at hp
    simp [hp]
  | cons a rest ih =>
    intro p hp
    simp only [splitCh, List.splitOn, List.splitOnP_cons] at hp ih
    by_cases ha : a = sep
    · rw [if_pos (by simp [ha])] at hp
      rcases List.mem_cons.mp hp with rfl | hp
      · simp
      · exact ih p hp
    · rw [if_neg (by simp [ha])] at hp
      cases h : List.splitOnP (· == sep) rest with
      | nil => exact absurd h (List.splitOnP_ne_nil _ rest)
      | cons q qs =>
        rw [h] at hp
        simp only [List.modifyHead] at hp
        rcases List.mem_cons.mp hp with rfl | hp
        · intro hmem
          rcases List.mem_cons.mp hmem with rfl | hmem
          · exact ha rfl
          · exact ih q (by rw [h]; simp) hmem
        · exact ih p (by rw [h]; simp [hp])

theorem splitCh_mem_subset (sep : Char) (l : List Char) :
    ∀ p ∈ splitCh sep l, ∀ c ∈ p, c ∈ l := by
  induction l with
  | nil =>
    intro p hp
    simp only [splitCh, List.splitOn_nil, List.mem_singleton] at hp
    simp [hp]
  | cons a rest ih =>
    intro p hp c hc
    simp only [splitCh, List.splitOn, List.splitOnP_cons] at hp ih
    by_cases ha : a = sep
    · rw [if_pos (by simp [ha])] at hp
      rcases List.mem_cons.mp hp with rfl | hp
      · simp at hc
      · exact List.mem_cons_of_mem a (ih p hp c hc)
    · rw [if_neg (by simp [ha])] at hp
      cases h : List.splitOnP (· == sep) rest with
      | nil => exact absurd h (List.splitOnP_ne_nil _ rest)
      | cons q qs =>
        rw [h] at hp
        simp only [List.modifyHead] at hp
        rcases List.mem_cons.mp hp with rfl | hp
        · rcases List.mem_cons.mp hc with rfl | hc
          · simp
          · exact List.mem_cons_of_mem a (ih q (by rw [h]; simp) c hc)
        · exact List.mem_cons_of_mem a (ih p (by rw [h]; simp [hp]) c hc)

theorem splitCh_joinCh (sep : Char) (ps : List (List Char))
    (hps : ∀ p ∈ ps, sep ∉ p) (hne : ps ≠ []) :
    splitCh sep (joinCh sep ps) = ps :=
  List.splitOn_intercalate ps sep hps hne

theorem joinCh_mem (sep : Char) (ps : List (List Char)) :
    ∀ c ∈ joinCh sep ps, c = sep ∨ ∃ p ∈ ps, c ∈ p := by
  induction ps with
  | nil => intro c hc; simp [joinCh_nil] at hc
  | cons p qs ih =>
    intro c hc
    cases qs with
    | nil =>
      rw [joinCh_single] at hc
      exact Or.inr ⟨p, by simp, hc⟩
    | cons q rs =>
      rw [joinCh_cons_cons] at hc
      rcases List.mem_append.mp hc with hc | hc
      · exact Or.inr ⟨p, by simp, hc⟩
      · rcases List.mem_cons.mp hc with rfl | hc
        · exact Or.inl rfl
        · rcases ih c hc with h | ⟨x, hx, hcx⟩
          · exact Or.inl h
          · exact Or.inr ⟨x, by simp [List.mem_cons.mp hx], hcx⟩

/-! ## Claim C5: lower-casing lemmas -/

theorem lowerChar_idem (c : Char) : lowerChar (lowerChar c) = lowerChar c := by
  have hTab : ∀ pr ∈ lowerPairs, ∀ a ∈ lowerPairs, ¬(a.1 = pr.2) := by decide
  unfold lowerChar
  cases hf : List.find? (fun p => p.1 = c) lowerPairs with
  | none => rw [hf]
  | some pr =>
    have hmem := List.mem_of_find?_eq_some hf
    have hnone : List.find? (fun p => p.1 = pr.2) lowerPairs = none := by
      rw [List.find?_eq_none]
      intro a ha
      simp only [decide_eq_true_eq]
      exact hTab pr hmem a ha
    rw [hnone]

theorem map_lowerChar_idem (l : List Char) :
    (l.map lowerChar).map lowerChar = l.map lowerChar := by
  rw [List.map_map]
  exact List.map_congr_left (fun a _ => lowerChar_idem a)

theorem lowerChar_isAlpha (c : Char) (h : c.isAlpha = true) :
    (lowerChar c).isAlpha = true := by
  have hTab : ∀ pr ∈ lowerPairs, pr.2.isAlpha = true := by decide
  unfold lowerChar
  cases hf : List.find? (fun p => p.1 = c) lowerPairs with
  | none => exact h
  | some pr => exact hTab pr (List.mem_of_find?_eq_some hf)

theorem isSchemeChar_lowerChar (c : Char) (h : isSchemeChar c = true) :
    isSchemeChar (lowerChar c) = true := by
  have hTab : ∀ pr ∈ lowerPairs, isSchemeChar pr.2 = true := by decide
  unfold lowerChar
  cases hf : List.find? (fun p => p.1 = c) lowerPairs with
  | none => exact h
  | some pr => exact hTab pr (List.mem_of_find?_eq_some hf)

theorem badHostChar_lowerChar (c : Char) (h : badHostChar c = false) :
    badHostChar (lowerChar c) = false := by
  have hTab : ∀ pr ∈ lowerPairs, badHostChar pr.2 = false := by decide
  unfold lowerChar
  cases hf : List.find? (fun p => p.1 = c) lowerPairs with
  | none => exact h
  | some pr => exact hTab pr (List.mem_of_find?_eq_some hf)

/-! ## Claim C5: query round trip and `filterQuery` idempotence -/

theorem parsePiece_append (k v : List Char) (hk : '=' ∉ k) :
    parsePiece (k ++ '=' :: v) = (k, v) := by
  unfold parsePiece
  rw [takeUntil_of_clean_stop ['='] k '=' v
    (fun x hx => by
      simp only [List.mem_singleton]
      rintro rfl
      exact hk hx)
    (by simp)]
  rfl

theorem parseQP_good (q : List Char) :
    ∀ kv ∈ parseQP q, ('&' ∉ kv.1 ∧ '=' ∉ kv.1) ∧ '&' ∉ kv.2 := by
  intro kv hkv
  unfold parseQP at hkv
  obtain ⟨p, hp, rfl⟩ := List.mem_map.mp hkv
  have hpmem : p ∈ splitCh '&' q := (List.mem_filter.mp hp).1
  have hnoamp : '&' ∉ p := splitCh_no_sep '&' q p hpmem
  have hsplit := takeUntil_fst_append_snd ['='] p
  have hfst1 : (parsePiece p).1 = (takeUntil ['='] p).1 := rfl
  refine ⟨⟨?_, ?_⟩, ?_⟩
  · intro hc
    rw [hfst1] at hc
    exact hnoamp (hsplit ▸ List.mem_append_left _ hc)
  · intro hc
    rw [hfst1] at hc
    exact takeUntil_fst_no_stops ['='] p '=' hc (by simp)
  · rcases takeUntil_snd_shape ['='] p with hnil | ⟨c, v, hcv, hcstop⟩
    · have : (parsePiece p).2 = [] := by unfold parsePiece; dsimp only; rw [hnil]
      rw [this]
      simp
    · have hc : c = '=' := by simpa using hcstop
      subst hc
      have hv : (parsePiece p).2 = v := by
        unfold parsePiece
        dsimp only
        rw [hcv]
        rfl
      rw [hv]
      intro hmem
      exact hnoamp (hsplit ▸ List.mem_append_right _ (hcv ▸ List.mem_cons_of_mem _ hmem))

theorem parseQP_serializeQP (ps : List (List Char × List Char))
    (hgood : ∀ kv ∈ ps, ('&' ∉ kv.1 ∧ '=' ∉ kv.1) ∧ '&' ∉ kv.2)
    (hne : ps ≠ []) :
    parseQP (serializeQP ps) = ps := by
  unfold parseQP serializeQP
  rw [splitCh_joinCh '&' (ps.map (fun kv => kv.1 ++ '=' :: kv.2))
    (by
      intro p hp
      obtain ⟨kv, hkv, rfl⟩ := List.mem_map.mp hp
      obtain ⟨⟨h1, _⟩, h3⟩ := hgood kv hkv
      intro hmem
      rcases List.mem_append.mp hmem with hmem | hmem
      · exact h1 hmem
      · rcases List.mem_cons.mp hmem with heq | hmem
        · exact absurd heq (by decide)
        · exact h3 hmem)
    (by
      intro hmap
      exact hne (List.map_eq_nil_iff.mp hmap))]
  rw [List.filter_eq_self.mpr
    (by
      intro a ha
      obtain ⟨kv, _, rfl⟩ := List.mem_map.mp ha
      simp)]
  rw [List.map_map]
  have : ∀ kv ∈ ps, (parsePiece ∘ fun kv => kv.1 ++ '=' :: kv.2) kv = kv := by
    intro kv hkv
    exact parsePiece_append kv.1 kv.2 (hgood kv hkv).1.2
  rw [List.map_congr_left this]
  simp

theorem serializeQP_nil : serializeQP [] = [] := rfl

theorem filterQuery_idem (q : Option String) :
    filterQuery (filterQuery q) = filterQuery q := by
  cases q with
  | none => rfl
  | some q =>
    by_cases hq : q = ""
    · subst hq
      rfl
    · have step1 : filterQuery (some q) =
        (if (serializeQP ((parseQP q.data).filter (fun kv => !(isTrackingKey kv.1)))).isEmpty
         then none
         else some (String.mk (serializeQP ((parseQP q.data).filter (fun kv => !(isTrackingKey kv.1)))))) := by
        unfold filterQuery
        dsimp only
        rw [if_neg hq]
      by_cases hs : (serializeQP ((parseQP q.data).filter (fun kv => !(isTrackingKey kv.1)))).isEmpty = true
      · rw [step1, if_pos hs]
        rfl
      · rw [step1, if_neg hs]
        have hsne : serializeQP ((parseQP q.data).filter (fun kv => !(isTrackingKey kv.1))) ≠ [] := by
          intro h
          rw [h] at hs
          exact hs rfl
        have hkeptne : (parseQP q.data).filter (fun kv => !(isTrackingKey kv.1)) ≠ [] := by
          intro h
          rw [h, serializeQP_nil] at hsne
          exact hsne rfl
        have hgood : ∀ kv ∈ (parseQP q.data).filter (fun kv => !(isTrackingKey kv.1)),
            ('&' ∉ kv.1 ∧ '=' ∉ kv.1) ∧ '&' ∉ kv.2 := by
          intro kv hkv
          exact parseQP_good q.data kv (List.mem_filter.mp hkv).1
        have hround := parseQP_serializeQP _ hgood hkeptne
        have hmkne : String.mk (serializeQP ((parseQP q.data).filter (fun kv => !(isTrackingKey kv.1)))) ≠ "" := by
          intro h
          rw [show ("" : String) = String.mk [] from rfl] at h
          exact hsne (by
            have := congrArg String.data h
            simpa using this)
        unfold filterQuery
        dsimp only
        rw [if_neg hmkne]
        rw [hround, List.filter_filter]
        have hfil : ((parseQP q.data).filter
            (fun kv => !(isTrackingKey kv.1) && !(isTrackingKey kv.1))) =
            ((parseQP q.data).filter (fun kv => !(isTrackingKey kv.1))) := by
          congr 1
          funext kv
          rw [Bool.and_self]
        rw [hfil, if_neg hs]

theorem validSchemeChars_lower (l : List Char) (h : validSchemeChars l = true) :
    validSchemeChars (l.map lowerChar) = true := by
  cases l with
  | nil => simp [validSchemeChars] at h
  | cons a as =>
    rw [List.map_cons]
    unfold validSchemeChars at h ⊢
    rw [Bool.and_eq_true] at h
    obtain ⟨h1, h2⟩ := h
    rw [List.all_eq_true] at h2
    rw [Bool.and_eq_true]
    refine ⟨lowerChar_isAlpha a h1, ?_⟩
    rw [List.all_eq_true]
    intro x hx
    rw [← List.map_cons] at hx
    obtain ⟨y, hy, rfl⟩ := List.mem_map.mp hx
    exact isSchemeChar_lowerChar y (h2 y hy)

/-! ## Claim C5: path-normalization lemmas -/

theorem dropLastSlash_single (c : Char) :
    dropLastSlash [c] = if c = '/' then [] else [c] := rfl

theorem dropLastSlash_cons_cons (a b : Char) (l : List Char) :
    dropLastSlash (a :: b :: l) = a :: dropLastSlash (b :: l) := rfl

theorem collapseSlashes_single (c : Char) : collapseSlashes [c] = [c] := rfl

theorem collapseSlashes_cons_cons (a b : Char) (l : List Char) :
    collapseSlashes (a :: b :: l) =
      if a = '/' ∧ b = '/' then collapseSlashes (b :: l)
      else a :: collapseSlashes (b :: l) := rfl

theorem noTwoSlashes_cons_cons (a b : Char) (l : List Char) :
    noTwoSlashes (a :: b :: l) =
      (!(a == '/' && b == '/') && noTwoSlashes (b :: l)) := rfl

theorem collapse_cons_shape (b : Char) (rs : List Char) :
    ∃ t, collapseSlashes (b :: rs) = b :: t := by
  induction rs generalizing b with
  | nil => exact ⟨[], rfl⟩
  | cons c rs' ih =>
    by_cases hab : b = '/' ∧ c = '/'
    · obtain ⟨t, ht⟩ := ih c
      rw [collapseSlashes_cons_cons, if_pos hab, ht]
      exact ⟨t, by rw [hab.1, hab.2]⟩
    · rw [collapseSlashes_cons_cons, if_neg hab]
      exact ⟨collapseSlashes (c :: rs'), rfl⟩

theorem collapse_noTwo (l : List Char) : noTwoSlashes (collapseSlashes l) = true := by
  induction l with
  | nil => rfl
  | cons a rest ih =>
    cases rest with
    | nil => rfl
    | cons b rs =>
      by_cases hab : a = '/' ∧ b = '/'
      · rw [collapseSlashes_cons_cons, if_pos hab]
        exact ih
      · rw [collapseSlashes_cons_cons, if_neg hab]
        obtain ⟨t, ht⟩ := collapse_cons_shape b rs
        rw [ht]
        rw [noTwoSlashes_cons_cons, Bool.and_eq_true]
        constructor
        · have hfalse : (a == '/' && b == '/') = false := by
            by_cases ha : a = '/'
            · by_cases hb : b = '/'
              · exact absurd ⟨ha, hb⟩ hab
              · simp [hb]
            · simp [ha]
          rw [hfalse]
          rfl
        · rw [← ht]
          exact ih

theorem collapse_of_noTwo (l : List Char) (h : noTwoSlashes l = true) :
    collapseSlashes l = l := by
  induction l with
  | nil => rfl
  | cons a rest ih =>
    cases rest with
    | nil => rfl
    | cons b rs =>
      rw [noTwoSlashes_cons_cons, Bool.and_eq_true] at h
      obtain ⟨h1, h2⟩ := h
      have hab : ¬(a = '/' ∧ b = '/') := by
        rintro ⟨rfl, rfl⟩
        simp at h1
      rw [collapseSlashes_cons_cons, if_neg hab, ih h2]

theorem collapse_mem (l : List Char) : ∀ c ∈ collapseSlashes l, c ∈ l := by
  induction l with
  | nil => intro c hc; exact hc
  | cons a rest ih =>
    cases rest with
    | nil => intro c hc; exact hc
    | cons b rs =>
      intro c hc
      by_cases hab : a = '/' ∧ b = '/'
      · rw [collapseSlashes_cons_cons, if_pos hab] at hc
        exact List.mem_cons_of_mem a (ih c hc)
      · rw [collapseSlashes_cons_cons, if_neg hab] at hc
        rcases List.mem_cons.mp hc with rfl | hc
        · simp
        · exact List.mem_cons_of_mem a (ih c hc)

theorem dropLastSlash_eq_nil_iff (l : List Char) :
    dropLastSlash l = [] ↔ (l = [] ∨ l = ['/']) := by
  cases l with
  | nil => simp [dropLastSlash]
  | cons a rest =>
    cases rest with
    | nil =>
      rw [dropLastSlash_single]
      by_cases ha : a = '/'
      · simp [ha]
      · simp [ha]
    | cons b rs =>
      rw [dropLastSlash_cons_cons]
      simp

theorem dropLastSlash_shape (b : Char) (rs : List Char) :
    dropLastSlash (b :: rs) = [] ∨ ∃ t, dropLastSlash (b :: rs) = b :: t := by
  cases rs with
  | nil =>
    rw [dropLastSlash_single]
    by_cases hb : b = '/'
    · rw [if_pos hb]
      exact Or.inl rfl
    · rw [if_neg hb]
      exact Or.inr ⟨[], rfl⟩
  | cons c rs' =>
    rw [dropLastSlash_cons_cons]
    exact Or.inr ⟨dropLastSlash (c :: rs'), rfl⟩

theorem dropLast_noTwo (l : List Char) (h : noTwoSlashes l = true) :
    noTwoSlashes (dropLastSlash l) = true := by
  induction l with
  | nil => rfl
  | cons a rest ih =>
    cases rest with
    | nil =>
      rw [dropLastSlash_single]
      by_cases ha : a = '/'
      · rw [if_pos ha]; rfl
      · rw [if_neg ha]; rfl
    | cons b rs =>
      rw [dropLastSlash_cons_cons]
      rw [noTwoSlashes_cons_cons, Bool.and_eq_true] at h
      obtain ⟨h1, h2⟩ := h
      rcases dropLastSlash_shape b rs with hnil | ⟨t, ht⟩
      · rw [hnil]
        rfl
      · rw [ht]
        rw [noTwoSlashes_cons_cons, Bool.and_eq_true]
        refine ⟨h1, ?_⟩
        rw [← ht]
        exact ih h2

theorem dropLast_idem (l : List Char) (h : noTwoSlashes l = true) :
    dropLastSlash (dropLastSlash l) = dropLastSlash l := by
  induction l with
  | nil => rfl
  | cons a rest ih =>
    cases rest with
    | nil =>
      rw [dropLastSlash_single]
      by_cases ha : a = '/'
      · rw [if_pos ha]
        rfl
      · rw [if_neg ha]
        rw [dropLastSlash_single, if_neg ha]
    | cons b rs =>
      rw [noTwoSlashes_cons_cons, Bool.and_eq_true] at h
      obtain ⟨h1, h2⟩ := h
      rw [dropLastSlash_cons_cons]
      rcases dropLastSlash_shape b rs with hnil | ⟨t, ht⟩
      · rw [hnil]
        have hbrs : (b :: rs) = ['/'] := by
          rcases (dropLastSlash_eq_nil_iff (b :: rs)).mp hnil with h | h
          · exact absurd h (by simp)
          · exact h
        have hb : b = '/' := by
          have := congrArg (fun l => l.head?) hbrs
          simpa using this
        have ha : a ≠ '/' := by
          intro haeq
          rw [haeq, hb] at h1
          simp at h1
        rw [dropLastSlash_single, if_neg ha]
      · rw [ht, dropLastSlash_cons_cons, ← ht, ih h2]

theorem dropLast_mem (l : List Char) : ∀ c ∈ dropLastSlash l, c ∈ l := by
  induction l with
  | nil => intro c hc; exact hc
  | cons a rest ih =>
    cases rest with
    | nil =>
      intro c hc
      rw [dropLastSlash_single] at hc
      by_cases ha : a = '/'
      · rw [if_pos ha] at hc
        simp at hc
      · rw [if_neg ha] at hc
        exact hc
    | cons b rs =>
      intro c hc
      rw [dropLastSlash_cons_cons] at hc
      rcases List.mem_cons.mp hc with rfl | hc
      · simp
      · exact List.mem_cons_of_mem a (ih c hc)

theorem normPathCs_slash : normPathCs ['/'] = ['/'] := rfl

theorem normPathCs_idem (p : List Char) : normPathCs (normPathCs p) = normPathCs p := by
  by_cases hs : (dropLastSlash (collapseSlashes p)).isEmpty = true
  · have h1 : normPathCs p = ['/'] := by
      unfold normPathCs
      rw [if_pos hs]
    rw [h1, normPathCs_slash]
  · have h1 : normPathCs p = dropLastSlash (collapseSlashes p) := by
      unfold normPathCs
      rw [if_neg hs]
    have hnt : noTwoSlashes (dropLastSlash (collapseSlashes p)) = true :=
      dropLast_noTwo _ (collapse_noTwo p)
    have hcol : collapseSlashes (dropLastSlash (collapseSlashes p)) =
        dropLastSlash (collapseSlashes p) := collapse_of_noTwo _ hnt
    have hdrop : dropLastSlash (dropLastSlash (collapseSlashes p)) =
        dropLastSlash (collapseSlashes p) := dropLast_idem _ (collapse_noTwo p)
    rw [h1]
    unfold normPathCs
    rw [hcol, hdrop, if_neg hs]

theorem collapse_head (l : List Char) :
    (collapseSlashes l).head? = l.head? := by
  cases l with
  | nil => rfl
  | cons b rs =>
    obtain ⟨t, ht⟩ := collapse_cons_shape b rs
    rw [ht]
    rfl

theorem normPathCs_head (p : List Char) (h : p.head? = some '/') :
    (normPathCs p).head? = some '/' := by
  by_cases hs : (dropLastSlash (collapseSlashes p)).isEmpty = true
  · unfold normPathCs
    rw [if_pos hs]
    rfl
  · unfold normPathCs
    rw [if_neg hs]
    cases hp : p with
    | nil =>
      rw [hp] at h
      simp at h
    | cons a rest =>
      rw [hp] at h
      have ha : a = '/' := by simpa using h
      subst ha
      obtain ⟨t, ht⟩ := collapse_cons_shape '/' rest
      rw [ht]
      rcases dropLastSlash_shape '/' t with hnil | ⟨t2, ht2⟩
      · exfalso
        apply hs
        rw [hp, ht, hnil]
        rfl
      · rw [ht2]
        rfl

theorem normPathCs_mem (p : List Char) :
    ∀ c ∈ normPathCs p, c ∈ p ∨ c = '/' := by
  intro c hc
  by_cases hs : (dropLastSlash (collapseSlashes p)).isEmpty = true
  · unfold normPathCs at hc
    rw [if_pos hs] at hc
    simp at hc
    exact Or.inr hc
  · unfold normPathCs at hc
    rw [if_neg hs] at hc
    exact Or.inl (collapse_mem p c (dropLast_mem _ c hc))

/-! ## Claim C5: host-normalization lemmas -/

theorem map_lower_drop (l : List Char) (n : ℕ) :
    ((l.map lowerChar).drop n).map lowerChar = (l.map lowerChar).drop n := by
  rw [List.map_drop, map_lowerChar_idem]

theorem normHost_eq_of_empty (h : String)
    (hw : "www.".data.isPrefixOf (h.data.map lowerChar) = false)
    (he : (h.data.map lowerChar).isEmpty = true) :
    normHost h = h := by
  unfold normHost
  dsimp only
  rw [hw]
  simp only [Bool.false_eq_true, if_false]
  rw [if_pos he]

theorem normHost_idem (h : String)
    (hww : "www.".data.isPrefixOf (normHost h).data = false) :
    normHost (normHost h) = normHost h := by
  by_cases hw : "www.".data.isPrefixOf (h.data.map lowerChar) = true
  · by_cases he : ((h.data.map lowerChar).drop 4).isEmpty = true
    · have h1 : normHost h = h := by
        unfold normHost
        dsimp only
        rw [hw]
        simp only [if_true]
        rw [if_pos he]
      rw [h1]
      exact h1
    · have h1 : normHost h = String.mk ((h.data.map lowerChar).drop 4) := by
        unfold normHost
        dsimp only
        rw [hw]
        simp only [if_true]
        rw [if_neg he]
      have hww2 : "www.".data.isPrefixOf ((h.data.map lowerChar).drop 4) = false := by
        rw [h1] at hww
        exact hww
      rw [h1]
      unfold normHost
      dsimp only
      rw [map_lower_drop, hww2]
      simp only [Bool.false_eq_true, if_false]
      rw [if_neg he]
  · have hw0 : "www.".data.isPrefixOf (h.data.map lowerChar) = false :=
      Bool.eq_false_iff.mpr hw
    by_cases he : (h.data.map lowerChar).isEmpty = true
    · have h1 : normHost h = h := normHost_eq_of_empty h hw0 he
      rw [h1]
      exact h1
    · have h1 : normHost h = String.mk (h.data.map lowerChar) := by
        unfold normHost
        dsimp only
        rw [hw0]
        simp only [Bool.false_eq_true, if_false]
        rw [if_neg he]
      rw [h1]
      unfold normHost
      dsimp only
      rw [map_lowerChar_idem, hw0]
      simp only [Bool.false_eq_true, if_false]
      rw [if_neg he]

theorem normHost_ne_empty (h : String) (hne : h.data ≠ []) :
    (normHost h).data ≠ [] := by
  unfold normHost
  dsimp only
  split
  · split
    · exact hne
    · rename_i he
      intro hcontra
      apply he
      rw [List.isEmpty_iff]
      exact hcontra
  · split
    · exact hne
    · rename_i he
      intro hcontra
      apply he
      rw [List.isEmpty_iff]
      exact hcontra

theorem normHost_mem (h : String) :
    ∀ c ∈ (normHost h).data, c ∈ h.data ∨ ∃ d ∈ h.data, c = lowerChar d := by
  intro c hc
  unfold normHost at hc
  dsimp only at hc
  split at hc
  · split at hc
    · exact Or.inl hc
    · have hcL : c ∈ h.data.map lowerChar := List.mem_of_mem_drop hc
      obtain ⟨d, hd, rfl⟩ := List.mem_map.mp hcL
      exact Or.inr ⟨d, hd, rfl⟩
  · split at hc
    · exact Or.inl hc
    · obtain ⟨d, hd, rfl⟩ := List.mem_map.mp hc
      exact Or.inr ⟨d, hd, rfl⟩

/-! ## Claim C5: parser component lemmas -/

theorem parseQuFr_query_no_hash (l : List Char) :
    ∀ q, (parseQuFr l).1 = some q → '#' ∉ q := by
  unfold parseQuFr
  split
  · rename_i rest
    intro q hq
    dsimp only at hq
    have hq2 : (takeUntil ['#'] rest).1 = q := Option.some.inj hq
    intro hmem
    rw [← hq2] at hmem
    exact takeUntil_fst_no_stops ['#'] rest '#' hmem (by simp)
  · intro q hq
    simp at hq
  · intro q hq
    simp at hq

theorem parsePathQuFr_query_no_hash (l : List Char) :
    ∀ q, (parsePathQuFr l).2.1 = some q → '#' ∉ q := by
  intro q hq
  unfold parsePathQuFr at hq
  dsimp only at hq
  exact parseQuFr_query_no_hash _ q hq

theorem parsePathQuFr_path_no_stops (l : List Char) :
    ∀ c ∈ (parsePathQuFr l).1, c ∉ ['?', '#'] := by
  intro c hc
  unfold parsePathQuFr at hc
  dsimp only at hc
  exact takeUntil_fst_no_stops ['?', '#'] l c hc

theorem takeUntil_cons (stops : List Char) (c : Char) (rest : List Char) :
    takeUntil stops (c :: rest) =
      if c ∈ stops then ([], c :: rest)
      else (c :: (takeUntil stops rest).1, (takeUntil stops rest).2) := by
  simp only [takeUntil]

theorem parsePathQuFr_path_shape (b : Char) (r2 : List Char) (hb : b = '/' ∨ b ∈ ['?', '#']) :
    (parsePathQuFr (b :: r2)).1 = [] ∨ ∃ t, (parsePathQuFr (b :: r2)).1 = '/' :: t := by
  rcases hb with rfl | hb
  · unfold parsePathQuFr
    dsimp only
    rw [takeUntil_cons, if_neg (by simp)]
    exact Or.inr ⟨(takeUntil ['?', '#'] r2).1, rfl⟩
  · unfold parsePathQuFr
    dsimp only
    rw [takeUntil_cons, if_pos hb]
    exact Or.inl rfl

/-! ## Claim C5: every parsed record is well-formed -/

theorem parse_wf {s : String} {r : URLRec} (h : parseURL s = some r) : wfURL r = true := by
  unfold parseURL parseAuthorityRest parseOpaque parsePortPart at h
  dsimp only at h
  split at h
  case h_2 => exact Option.noConfusion h
  case h_1 afterColon heq =>
    split at h
    case isFalse => exact Option.noConfusion h
    case isTrue hvalid =>
      split at h
      case isTrue hspec =>
        split at h
        case isTrue => exact Option.noConfusion h
        case isFalse hap =>
          split at h
          case isTrue => exact Option.noConfusion h
          case isFalse hhp =>
            split at h
            case h_1 => exact Option.noConfusion h
            case h_2 port heqp =>
              rw [← Option.some.inj h]
              have hhp2 : ((takeUntil [':']
                  (takeUntil ['/', '?', '#'] (List.dropWhile (fun x => x == '/') afterColon)).1).1.isEmpty = false) ∧
                  ((takeUntil [':']
                  (takeUntil ['/', '?', '#'] (List.dropWhile (fun x => x == '/') afterColon)).1).1.any badHostChar = false) := by
                have h2 := hhp
                simp only [Bool.or_eq_true, not_or, Bool.not_eq_true] at h2
                exact h2
              have hport : port = none ∨ ∃ pcs : List Char,
                  pcs.isEmpty = false ∧ pcs.all Char.isDigit = true ∧
                  (defaultPort (String.mk ((takeUntil [':'] s.data).1.map lowerChar)) ==
                    some (String.mk pcs)) = false ∧ port = some (String.mk pcs) := by
                split at heqp
                case h_1 pcs heqpc =>
                  split at heqp
                  case isTrue => exact Or.inl (Option.some.inj heqp).symm
                  case isFalse hne =>
                    split at heqp
                    case isFalse => exact Option.noConfusion heqp
                    case isTrue hdig =>
                      split at heqp
                      case isTrue => exact Or.inl (Option.some.inj heqp).symm
                      case isFalse hdef =>
                        exact Or.inr ⟨pcs, Bool.eq_false_iff.mpr hne, hdig,
                          Bool.eq_false_iff.mpr hdef, (Option.some.inj heqp).symm⟩
                case h_2 => exact Or.inl (Option.some.inj heqp).symm
              unfold wfURL
              dsimp only
              simp only [if_true]
              simp only [Bool.and_eq_true]
              refine ⟨⟨⟨?sch, ?low⟩, ?qry⟩, ⟨⟨⟨⟨⟨?spec, ?hne⟩, ?hbad⟩, ?prt⟩, ?pth⟩, ?pany⟩⟩
              case sch => exact validSchemeChars_lower _ hvalid
              case low =>
                rw [map_lowerChar_idem]
                simp
              case qry =>
                cases hq : (parsePathQuFr
                    (takeUntil ['/', '?', '#'] (List.dropWhile (fun x => x == '/') afterColon)).2).2.1 with
                | none => rfl
                | some q =>
                  have hnh := parsePathQuFr_query_no_hash _ q hq
                  simp [List.contains, List.elem_eq_mem, hnh]
              case spec => exact hspec
              case hne =>
                rw [hhp2.1]
                rfl
              case hbad =>
                rw [hhp2.2]
                rfl
              case prt =>
                rcases hport with rfl | ⟨pcs, hne, hdig, hdef, rfl⟩
                · rfl
                · simp only [Bool.and_eq_true]
                  refine ⟨⟨?_, hdig⟩, ?_⟩
                  · rw [hne]
                    rfl
                  · rw [hdef]
                    rfl
              case pth =>
                by_cases hpe : (parsePathQuFr
                    (takeUntil ['/', '?', '#'] (List.dropWhile (fun x => x == '/') afterColon)).2).1.isEmpty = true
                · rw [if_pos hpe]
                  rfl
                · rw [if_neg hpe]
                  rcases takeUntil_snd_shape ['/', '?', '#']
                      (List.dropWhile (fun x => x == '/') afterColon) with hR2 | ⟨c, r2, hR2, hcmem⟩
                  · rw [hR2] at hpe
                    exact absurd rfl hpe
                  · rw [hR2] at hpe ⊢
                    rcases parsePathQuFr_path_shape c r2 (by simpa using hcmem) with hnil | ⟨t, ht⟩
                    · rw [hnil] at hpe
                      exact absurd rfl hpe
                    · rw [ht]
                      rfl
              case pany =>
                by_cases hpe : (parsePathQuFr
                    (takeUntil ['/', '?', '#'] (List.dropWhile (fun x => x == '/') afterColon)).2).1.isEmpty = true
                · rw [if_pos hpe]
                  rfl
                · rw [if_neg hpe]
                  have hns := parsePathQuFr_path_no_stops
                    (takeUntil ['/', '?', '#'] (List.dropWhile (fun x => x == '/') afterColon)).2
                  rw [Bool.not_eq_true']
                  rw [List.any_eq_false]
                  intro c hc
                  have hcns := hns c hc
                  simp at hcns
                  simp [hcns.1, hcns.2]
      case isFalse hspec =>
        rw [← Option.some.inj h]
        unfold wfURL
        dsimp only
        simp only [Bool.false_eq_true, if_false]
        simp only [Bool.and_eq_true]
        refine ⟨⟨⟨?sch2, ?low2⟩, ?qry2⟩, ⟨⟨⟨?nspec, ?hstr⟩, ?prt2⟩, ?pany2⟩⟩
        case sch2 => exact validSchemeChars_lower _ hvalid
        case low2 =>
          rw [map_lowerChar_idem]
          simp
        case qry2 =>
          cases hq : (parsePathQuFr afterColon).2.1 with
          | none => rfl
          | some q =>
            have hnh := parsePathQuFr_query_no_hash _ q hq
            simp [List.contains, List.elem_eq_mem, hnh]
        case nspec =>
          rw [Bool.eq_false_iff.mpr hspec]
          rfl
        case hstr => rfl
        case prt2 => rfl
        case pany2 =>
          have hns := parsePathQuFr_path_no_stops afterColon
          rw [Bool.not_eq_true']
          rw [List.any_eq_false]
          intro c hc
          have hcns := hns c hc
          simp at hcns
          simp [hcns.1, hcns.2]

/-! ## Claim C5: serializer/parser round trip — character facts -/

theorem stringMk_data (s : String) : String.mk s.data = s := by
  cases s
  rfl

theorem data_append (a b : String) : (a ++ b).data = a.data ++ b.data := rfl

theorem validScheme_mem_ne_colon (l : List Char) (h : validSchemeChars l = true) :
    ∀ c ∈ l, c ∉ [':'] := by
  cases l with
  | nil => intro c hc; simp at hc
  | cons a as =>
    unfold validSchemeChars at h
    rw [Bool.and_eq_true, List.all_eq_true] at h
    intro c hc hmem
    have hsc := h.2 c hc
    have : c = ':' := by simpa using hmem
    subst this
    exact absurd hsc (by decide)

theorem mem_contains_true (l : List Char) (a : Char) (hmem : a ∈ l) :
    l.contains a = true :=
  List.contains_iff_exists_mem_beq.mpr ⟨a, hmem, by simp⟩

theorem contains_false_of_not_mem (l : List Char) (a : Char) (h : a ∉ l) :
    l.contains a = false := by
  cases hc : l.contains a with
  | false => rfl
  | true =>
    exfalso
    apply h
    obtain ⟨b, hb, heq⟩ := List.contains_iff_exists_mem_beq.mp hc
    rwa [show a = b from eq_of_beq heq]

theorem not_mem_of_contains_false (l : List Char) (a : Char) (h : (!(l.contains a)) = true) :
    a ∉ l := by
  intro hmem
  rw [mem_contains_true l a hmem] at h
  exact Bool.noConfusion h

theorem notBad_not_mem_seps (c : Char) (h : badHostChar c = false) :
    c ∉ [':', '/', '?', '#'] := by
  intro hmem
  have hc : c = ':' ∨ c = '/' ∨ c = '?' ∨ c = '#' := by simpa using hmem
  rcases hc with rfl | rfl | rfl | rfl <;> exact absurd h (by decide)

theorem notBad_ne_at (c : Char) (h : badHostChar c = false) : c ≠ '@' := by
  rintro rfl
  exact absurd h (by decide)

theorem digit_notBad (c : Char) (h : c.isDigit = true) : badHostChar c = false := by
  cases hb : badHostChar c with
  | false => rfl
  | true =>
    exfalso
    have hmem : c ∈ [' ', '\t', '\n', '#', '/', '?', '@', ':', '[', ']', '\\', '%', '<', '>', '^', '|'] := by
      simpa [badHostChar] using hb
    have : c = ' ' ∨ c = '\t' ∨ c = '\n' ∨ c = '#' ∨ c = '/' ∨ c = '?' ∨ c = '@' ∨
        c = ':' ∨ c = '[' ∨ c = ']' ∨ c = '\\' ∨ c = '%' ∨ c = '<' ∨ c = '>' ∨
        c = '^' ∨ c = '|' := by simpa using hmem
    rcases this with rfl|rfl|rfl|rfl|rfl|rfl|rfl|rfl|rfl|rfl|rfl|rfl|rfl|rfl|rfl|rfl <;>
      exact absurd h (by decide)

theorem any_false_forall (l : List Char) (p : Char → Bool) (h : l.any p = false) :
    ∀ c ∈ l, p c = false := by
  intro c hc
  cases hp : p c with
  | false => rfl
  | true =>
    exfalso
    have : l.any p = true := List.any_eq_true.mpr ⟨c, hc, hp⟩
    rw [this] at h
    exact Bool.noConfusion h

theorem isEmpty_false_ne_nil (l : List Char) (h : l.isEmpty = false) : l ≠ [] := by
  intro hl
  rw [hl] at h
  exact Bool.noConfusion h

/-! ## Claim C5: path-query-fragment round trip -/

theorem parseQuFr_nil : parseQuFr [] = (none, none) := rfl

theorem parseQuFr_question (rest : List Char) :
    parseQuFr ('?' :: rest) = (some (takeUntil ['#'] rest).1,
      match (takeUntil ['#'] rest).2 with | '#' :: f => some f | _ => none) := rfl

theorem parseQuFr_hash (f : List Char) : parseQuFr ('#' :: f) = (none, some f) := rfl

theorem parsePathQuFr_roundtrip (p : List Char) (query frag : Option String)
    (hpath : ∀ c ∈ p, c ∉ ['?', '#'])
    (hq : ∀ q, query = some q → '#' ∉ q.data) :
    parsePathQuFr (p ++ (quStr query ++ frStr frag).data) =
      (p, query.map String.data, frag.map String.data) := by
  unfold quStr frStr
  cases query with
  | none =>
    cases frag with
    | none =>
      show parsePathQuFr (p ++ ([] : List Char)) = (p, none, none)
      rw [List.append_nil]
      unfold parsePathQuFr
      dsimp only
      rw [takeUntil_of_clean ['?', '#'] p hpath]
      dsimp only
      rw [parseQuFr_nil]
    | some f =>
      show parsePathQuFr (p ++ '#' :: f.data) = (p, none, some f.data)
      unfold parsePathQuFr
      dsimp only
      rw [takeUntil_of_clean_stop ['?', '#'] p '#' f.data hpath (by simp)]
      dsimp only
      rw [parseQuFr_hash]
  | some q =>
    have hqq := hq q rfl
    have hqclean : ∀ x ∈ q.data, x ∉ ['#'] := by
      intro x hx hmem
      have hxh : x = '#' := by simpa using hmem
      subst hxh
      exact hqq hx
    cases frag with
    | none =>
      show parsePathQuFr (p ++ ('?' :: q.data ++ [])) = (p, some q.data, none)
      rw [List.append_nil]
      unfold parsePathQuFr
      dsimp only
      rw [takeUntil_of_clean_stop ['?', '#'] p '?' q.data hpath (by simp)]
      dsimp only
      rw [parseQuFr_question]
      rw [takeUntil_of_clean ['#'] q.data hqclean]
    | some f =>
      show parsePathQuFr (p ++ '?' :: (q.data ++ '#' :: f.data)) = (p, some q.data, some f.data)
      unfold parsePathQuFr
      dsimp only
      rw [takeUntil_of_clean_stop ['?', '#'] p '?' (q.data ++ '#' :: f.data) hpath (by simp)]
      dsimp only
      rw [parseQuFr_question]
      rw [takeUntil_of_clean_stop ['#'] q.data '#' f.data hqclean (by simp)]
      rfl

/-! ## Claim C5: serializer is a right inverse of the parser -/

theorem parseURL_colon (s : String) (sd AC : List Char)
    (h : takeUntil [':'] s.data = (sd, ':' :: AC)) :
    parseURL s =
      (if validSchemeChars sd then
        if specialSchemes.contains (String.mk (sd.map lowerChar)) then
          parseAuthorityRest (String.mk (sd.map lowerChar)) (AC.dropWhile (· == '/'))
        else parseOpaque (String.mk (sd.map lowerChar)) AC
      else none) := by
  unfold parseURL
  rw [h]
  rfl

theorem option_data_mk (o : Option String) :
    (o.map String.data).map String.mk = o := by
  cases o with
  | none => rfl
  | some x =>
    show some (String.mk x.data) = some x
    rw [stringMk_data]

theorem serialize_parse_opq {scheme path : String} {query frag : Option String}
    (hwf : wfURL ⟨scheme, false, "", none, path, query, frag⟩ = true) :
    parseURL (serializeURL ⟨scheme, false, "", none, path, query, frag⟩) =
      some ⟨scheme, false, "", none, path, query, frag⟩ := by
  unfold wfURL at hwf
  dsimp only at hwf
  simp only [Bool.false_eq_true, if_false, Bool.and_eq_true] at hwf
  obtain ⟨⟨⟨hsch, hlow⟩, hqwf⟩, ⟨⟨hnspec, hhost⟩, hprt⟩, hpany⟩ := hwf
  have hlow' : scheme.data.map lowerChar = scheme.data := by simpa using hlow
  have hschemeclean : ∀ c ∈ scheme.data, c ∉ [':'] := validScheme_mem_ne_colon _ hsch
  have hnspec' : specialSchemes.contains scheme = false := by
    rw [Bool.not_eq_true'] at hnspec
    exact hnspec
  have hq' : ∀ q, query = some q → '#' ∉ q.data := by
    intro q hq
    subst hq
    exact not_mem_of_contains_false q.data '#' hqwf
  have hpany' : ∀ c ∈ path.data, c ∉ ['?', '#'] := by
    rw [Bool.not_eq_true'] at hpany
    have h1 := any_false_forall path.data _ hpany
    intro c hc hcmem
    have h2 := h1 c hc
    have hc2 : c = '?' ∨ c = '#' := by simpa using hcmem
    rcases hc2 with rfl | rfl <;> simp at h2
  unfold serializeURL
  dsimp only
  simp only [Bool.false_eq_true, if_false]
  have hdata : (scheme ++ ":" ++ path ++ quStr query ++ frStr frag).data =
      scheme.data ++ ':' :: (path.data ++ (quStr query ++ frStr frag).data) := by
    simp [data_append, List.append_assoc]
  have hsplit : takeUntil [':'] (scheme ++ ":" ++ path ++ quStr query ++ frStr frag).data =
      (scheme.data, ':' :: (path.data ++ (quStr query ++ frStr frag).data)) := by
    rw [hdata]
    exact takeUntil_of_clean_stop [':'] scheme.data ':' _ hschemeclean (by simp)
  rw [parseURL_colon _ _ _ hsplit]
  rw [if_pos hsch, hlow', stringMk_data, hnspec']
  simp only [Bool.false_eq_true, if_false]
  unfold parseOpaque
  dsimp only
  rw [parsePathQuFr_roundtrip path.data query frag hpany' hq']
  dsimp only
  rw [stringMk_data, option_data_mk, option_data_mk]


theorem parsePortPart_nil (scheme : String) : parsePortPart scheme [] = some none := rfl

theorem parsePortPart_colon (scheme : String) (pcs : List Char) :
    parsePortPart scheme (':' :: pcs) =
      (if pcs.isEmpty then some none
       else if pcs.all Char.isDigit then
         if defaultPort scheme == some (String.mk pcs) then some none
         else some (some (String.mk pcs))
       else none) := rfl

theorem dropWhile_two_slashes (h0 : Char) (hh0 : (h0 == '/') = false) (hs X : List Char) :
    List.dropWhile (fun x => x == '/') ('/' :: '/' :: ((h0 :: hs) ++ X)) =
      (h0 :: hs) ++ X := by
  rw [List.cons_append]
  have step : List.dropWhile (fun x => x == '/') ('/' :: '/' :: (h0 :: (hs ++ X))) =
      List.dropWhile (fun x => x == '/') (h0 :: (hs ++ X)) := rfl
  rw [step, List.dropWhile_cons, hh0]
  simp only [Bool.false_eq_true, if_false]

theorem serialize_parse_auth {scheme host path : String} {port query frag : Option String}
    (hwf : wfURL ⟨scheme, true, host, port, path, query, frag⟩ = true) :
    parseURL (serializeURL ⟨scheme, true, host, port, path, query, frag⟩) =
      some ⟨scheme, true, host, port, path, query, frag⟩ := by
  unfold wfURL at hwf
  dsimp only at hwf
  simp only [if_true, Bool.and_eq_true] at hwf
  obtain ⟨⟨⟨hsch, hlow⟩, hqwf⟩, ⟨⟨⟨⟨⟨hspec, hne⟩, hbad⟩, hprtwf⟩, hpshape⟩, hpany⟩⟩ := hwf
  have hlow' : scheme.data.map lowerChar = scheme.data := by simpa using hlow
  have hschemeclean : ∀ c ∈ scheme.data, c ∉ [':'] := validScheme_mem_ne_colon _ hsch
  have hq' : ∀ q, query = some q → '#' ∉ q.data := by
    intro q hq
    subst hq
    exact not_mem_of_contains_false q.data '#' hqwf
  have hpany' : ∀ c ∈ path.data, c ∉ ['?', '#'] := by
    rw [Bool.not_eq_true'] at hpany
    have h1 := any_false_forall path.data _ hpany
    intro c hc hcmem
    have h2 := h1 c hc
    have hc2 : c = '?' ∨ c = '#' := by simpa using hcmem
    rcases hc2 with rfl | rfl <;> simp at h2
  have hne0 : host.data.isEmpty = false := by
    rw [Bool.not_eq_true'] at hne
    exact hne
  have hne' : host.data ≠ [] := isEmpty_false_ne_nil _ hne0
  obtain ⟨h0, hs, hhd⟩ := List.exists_cons_of_ne_nil hne'
  have hbad' : host.data.any badHostChar = false := by
    rw [Bool.not_eq_true'] at hbad
    exact hbad
  have hostclean := any_false_forall host.data badHostChar hbad'
  obtain ⟨tail, hpd⟩ : ∃ t, path.data = '/' :: t := by
    split at hpshape
    · rename_i t heq
      exact ⟨t, heq⟩
    · exact Bool.noConfusion hpshape
  have hh0bad : badHostChar h0 = false := hostclean h0 (by rw [hhd]; simp)
  have hh0 : (h0 == '/') = false := by
    have hne2 : h0 ≠ '/' := by
      intro heq
      exact (notBad_not_mem_seps h0 hh0bad) (by rw [heq]; simp)
    exact beq_eq_false_iff_ne.mpr hne2
  have hostseps : ∀ c ∈ (h0 :: hs), c ∉ ['/', '?', '#'] := by
    intro c hc hm
    exact notBad_not_mem_seps c (hostclean c (by rw [hhd]; exact hc)) (List.mem_cons_of_mem ':' hm)
  have hostcolon : ∀ c ∈ (h0 :: hs), c ∉ [':'] := by
    intro c hc hm
    have hcc : c = ':' := by simpa using hm
    subst hcc
    exact notBad_not_mem_seps ':' (hostclean ':' (by rw [hhd]; exact hc)) (by simp)
  have hostat : (h0 :: hs).contains '@' = false := by
    apply contains_false_of_not_mem
    intro hm
    have := hostclean '@' (by rw [hhd]; exact hm)
    exact absurd this (by decide)
  have hg1 : ((h0 :: hs) : List Char).isEmpty = false := rfl
  unfold serializeURL
  dsimp only
  simp only [if_true]
  cases port with
  | none =>
    have hdata : (scheme ++ "://" ++ host ++ portStr none ++ path ++ quStr query ++ frStr frag).data =
        scheme.data ++ ':' :: ('/' :: '/' :: ((h0 :: hs) ++ ('/' :: (tail ++ (quStr query ++ frStr frag).data)))) := by
      simp [data_append, List.append_assoc, portStr, hhd, hpd]
    have hsplit : takeUntil [':'] (scheme ++ "://" ++ host ++ portStr none ++ path ++ quStr query ++ frStr frag).data =
        (scheme.data, ':' :: ('/' :: '/' :: ((h0 :: hs) ++ ('/' :: (tail ++ (quStr query ++ frStr frag).data))))) := by
      rw [hdata]
      exact takeUntil_of_clean_stop [':'] scheme.data ':' _ hschemeclean (by simp)
    rw [parseURL_colon _ _ _ hsplit]
    rw [if_pos hsch, hlow', stringMk_data, if_pos hspec]
    rw [dropWhile_two_slashes h0 hh0 hs _]
    unfold parseAuthorityRest
    dsimp only
    rw [takeUntil_of_clean_stop ['/', '?', '#'] (h0 :: hs) '/'
      (tail ++ (quStr query ++ frStr frag).data) hostseps (by simp)]
    dsimp only
    rw [if_neg (show ¬(((h0 :: hs) : List Char).isEmpty || ((h0 :: hs) : List Char).contains '@') = true by
      rw [hg1, hostat]
      simp)]
    rw [takeUntil_of_clean [':'] (h0 :: hs) hostcolon]
    dsimp only
    rw [if_neg (show ¬(((h0 :: hs) : List Char).isEmpty || ((h0 :: hs) : List Char).any badHostChar) = true by
      rw [hg1, ← hhd, hbad']
      simp)]
    rw [parsePortPart_nil]
    dsimp only
    rw [← List.cons_append, ← hpd]
    rw [parsePathQuFr_roundtrip path.data query frag hpany' hq']
    dsimp only
    rw [if_neg (show ¬(path.data.isEmpty = true) by rw [hpd]; simp)]
    rw [← hhd, stringMk_data, stringMk_data, option_data_mk, option_data_mk]
  | some p =>
    dsimp only at hprtwf
    simp only [Bool.and_eq_true] at hprtwf
    obtain ⟨⟨hp1, hp2⟩, hp3⟩ := hprtwf
    have hp1' : p.data.isEmpty = false := by
      rw [Bool.not_eq_true'] at hp1
      exact hp1
    have hp3' : (defaultPort scheme == some p) = false := by
      rw [Bool.not_eq_true'] at hp3
      exact hp3
    have hdata : (scheme ++ "://" ++ host ++ portStr (some p) ++ path ++ quStr query ++ frStr frag).data =
        scheme.data ++ ':' :: ('/' :: '/' :: ((h0 :: hs) ++ (':' :: p.data ++ '/' :: (tail ++ (quStr query ++ frStr frag).data)))) := by
      simp [data_append, List.append_assoc, portStr, hhd, hpd]
    have hsplit : takeUntil [':'] (scheme ++ "://" ++ host ++ portStr (some p) ++ path ++ quStr query ++ frStr frag).data =
        (scheme.data, ':' :: ('/' :: '/' :: ((h0 :: hs) ++ (':' :: p.data ++ '/' :: (tail ++ (quStr query ++ frStr frag).data))))) := by
      rw [hdata]
      exact takeUntil_of_clean_stop [':'] scheme.data ':' _ hschemeclean (by simp)
    rw [parseURL_colon _ _ _ hsplit]
    rw [if_pos hsch, hlow', stringMk_data, if_pos hspec]
    rw [dropWhile_two_slashes h0 hh0 hs _]
    unfold parseAuthorityRest
    dsimp only
    rw [show ((h0 :: hs) : List Char) ++ (':' :: p.data ++ '/' :: (tail ++ (quStr query ++ frStr frag).data)) =
        ((h0 :: hs) ++ ':' :: p.data) ++ '/' :: (tail ++ (quStr query ++ frStr frag).data) from by
      rw [List.append_assoc]]
    rw [takeUntil_of_clean_stop ['/', '?', '#'] ((h0 :: hs) ++ ':' :: p.data) '/'
      (tail ++ (quStr query ++ frStr frag).data)
      (by
        intro c hc hm
        rcases List.mem_append.mp hc with hc | hc
        · exact hostseps c hc hm
        · rcases List.mem_cons.mp hc with rfl | hc
          · simp at hm
          · have hdig := List.all_eq_true.mp hp2 c hc
            have hnb := digit_notBad c hdig
            exact notBad_not_mem_seps c hnb (List.mem_cons_of_mem ':' hm))
      (by simp)]
    dsimp only
    have hcontains : (((h0 :: hs) ++ ':' :: p.data : List Char)).contains '@' = false := by
      apply contains_false_of_not_mem
      intro hm
      rcases List.mem_append.mp hm with hm | hm
      · have := hostclean '@' (by rw [hhd]; exact hm)
        exact absurd this (by decide)
      · rcases List.mem_cons.mp hm with heq | hm
        · exact absurd heq (by decide)
        · have hdig := List.all_eq_true.mp hp2 '@' hm
          exact absurd hdig (by decide)
    have hemp : (((h0 :: hs) ++ ':' :: p.data : List Char)).isEmpty = false := by
      rw [List.cons_append]
      rfl
    rw [if_neg (show ¬((((h0 :: hs) ++ ':' :: p.data : List Char)).isEmpty ||
        (((h0 :: hs) ++ ':' :: p.data : List Char)).contains '@') = true by
      rw [hemp, hcontains]
      simp)]
    rw [takeUntil_of_clean_stop [':'] (h0 :: hs) ':' p.data hostcolon (by simp)]
    dsimp only
    rw [if_neg (show ¬(((h0 :: hs) : List Char).isEmpty || ((h0 :: hs) : List Char).any badHostChar) = true by
      rw [hg1, ← hhd, hbad']
      simp)]
    rw [parsePortPart_colon]
    rw [if_neg (show ¬(p.data.isEmpty = true) by rw [hp1']; simp)]
    rw [if_pos hp2]
    rw [stringMk_data]
    rw [if_neg (show ¬((defaultPort scheme == some p) = true) by rw [hp3']; simp)]
    dsimp only
    rw [← List.cons_append, ← hpd]
    rw [parsePathQuFr_roundtrip path.data query frag hpany' hq']
    dsimp only
    rw [if_neg (show ¬(path.data.isEmpty = true) by rw [hpd]; simp)]
    rw [← hhd, stringMk_data, stringMk_data, option_data_mk, option_data_mk]


theorem serialize_parse {r : URLRec} (hwf : wfURL r = true) :
    parseURL (serializeURL r) = some r := by
  obtain ⟨scheme, af, host, port, path, query, frag⟩ := r
  cases af with
  | false =>
    have h1 : host = "" ∧ port = none := by
      unfold wfURL at hwf
      dsimp only at hwf
      simp only [Bool.false_eq_true, if_false, Bool.and_eq_true] at hwf
      obtain ⟨_, ⟨⟨_, hhost⟩, hprt⟩, _⟩ := hwf
      exact ⟨by simpa using hhost, by simpa using hprt⟩
    obtain ⟨rfl, rfl⟩ := h1
    exact serialize_parse_opq hwf
  | true => exact serialize_parse_auth hwf

theorem parseQP_mem_subset (q : List Char) :
    ∀ kv ∈ parseQP q, (∀ c ∈ kv.1, c ∈ q) ∧ (∀ c ∈ kv.2, c ∈ q) := by
  intro kv hkv
  unfold parseQP at hkv
  obtain ⟨p, hp, rfl⟩ := List.mem_map.mp hkv
  have hpmem : p ∈ splitCh '&' q := (List.mem_filter.mp hp).1
  have hsub := splitCh_mem_subset '&' q p hpmem
  have hsplit := takeUntil_fst_append_snd ['='] p
  constructor
  · intro c hc
    have : c ∈ p := hsplit ▸ List.mem_append_left _ hc
    exact hsub c this
  · intro c hc
    rcases takeUntil_snd_shape ['='] p with hnil | ⟨d, v, hdv, hdstop⟩
    · have h2 : (parsePiece p).2 = [] := by unfold parsePiece; dsimp only; rw [hnil]
      rw [h2] at hc
      simp at hc
    · have hd : d = '=' := by simpa using hdstop
      subst hd
      have h2 : (parsePiece p).2 = v := by
        unfold parsePiece
        dsimp only
        rw [hdv]
        rfl
      rw [h2] at hc
      have : c ∈ p := hsplit ▸ List.mem_append_right _ (hdv ▸ List.mem_cons_of_mem _ hc)
      exact hsub c this

theorem filterQuery_no_hash (query : Option String)
    (h : ∀ q, query = some q → '#' ∉ q.data) :
    ∀ q', filterQuery query = some q' → '#' ∉ q'.data := by
  intro q' hq'
  cases query with
  | none => simp [filterQuery] at hq'
  | some q =>
    have hq0 := h q rfl
    unfold filterQuery at hq'
    dsimp only at hq'
    by_cases hqe : q = ""
    · rw [if_pos hqe] at hq'
      have : q' = "" := (Option.some.inj hq').symm
      subst this
      simp
    · rw [if_neg hqe] at hq'
      split at hq'
      · exact Option.noConfusion hq'
      · have hq'' := Option.some.inj hq'
        subst hq''
        intro hmem
        have hmem2 : '#' ∈ serializeQP
            ((parseQP q.data).filter (fun kv => !(isTrackingKey kv.1))) := hmem
        unfold serializeQP at hmem2
        rcases joinCh_mem '&' _ '#' hmem2 with heq | ⟨piece, hpiece, hcp⟩
        · exact absurd heq (by decide)
        · obtain ⟨kv, hkv, rfl⟩ := List.mem_map.mp hpiece
          have hkv2 : kv ∈ parseQP q.data := (List.mem_filter.mp hkv).1
          have hsub := parseQP_mem_subset q.data kv hkv2
          rcases List.mem_append.mp hcp with hck | hcv
          · exact hq0 (hsub.1 '#' hck)
          · rcases List.mem_cons.mp hcv with heq | hcv
            · exact absurd heq (by decide)
            · exact hq0 (hsub.2 '#' hcv)


theorem normRecord_wf {r : URLRec} (hwf : wfURL r = true) :
    wfURL (normRecord r) = true := by
  obtain ⟨scheme, af, host, port, path, query, frag⟩ := r
  unfold wfURL at hwf
  dsimp only at hwf
  cases af with
  | true =>
    simp only [if_true] at hwf
    simp only [Bool.and_eq_true] at hwf
    obtain ⟨⟨⟨sch, low⟩, qry⟩, ⟨⟨⟨⟨⟨spec, hne⟩, hbad⟩, prt⟩, pth⟩, pany⟩⟩ := hwf
    have hq : ∀ q, query = some q → '#' ∉ q.data := by
      cases query with
      | none => intro q hqe; exact Option.noConfusion hqe
      | some q0 =>
        intro q hqe
        have hq0 : q0 = q := Option.some.inj hqe
        subst hq0
        exact not_mem_of_contains_false _ _ qry
    unfold normRecord
    dsimp only
    simp only [if_true]
    unfold wfURL
    dsimp only
    simp only [if_true]
    simp only [Bool.and_eq_true]
    refine ⟨⟨⟨sch, low⟩, ?_⟩, ⟨⟨⟨⟨⟨spec, ?_⟩, ?_⟩, prt⟩, ?_⟩, ?_⟩⟩
    · cases hfq : filterQuery query with
      | none => rfl
      | some q' =>
        have hnh := filterQuery_no_hash query hq q' hfq
        dsimp only
        rw [contains_false_of_not_mem _ _ hnh]
        rfl
    · rw [Bool.not_eq_true'] at hne
      have h1 : host.data ≠ [] := isEmpty_false_ne_nil _ hne
      have h2 := normHost_ne_empty host h1
      rw [Bool.not_eq_true']
      cases h3 : (normHost host).data with
      | nil => exact absurd h3 h2
      | cons a t => rfl
    · rw [Bool.not_eq_true'] at hbad ⊢
      have hall := any_false_forall _ _ hbad
      apply List.any_eq_false.mpr
      intro c hc
      rcases normHost_mem host c hc with hin | ⟨d, hd, rfl⟩
      · simp [hall c hin]
      · simp [badHostChar_lowerChar d (hall d hd)]
    · have hhead : path.data.head? = some '/' := by
        split at pth
        next x heq => rw [heq]; rfl
        next => exact Bool.noConfusion pth
      have hn := normPathCs_head path.data hhead
      cases hnp : normPathCs path.data with
      | nil => rw [hnp] at hn; exact Option.noConfusion hn
      | cons a t =>
        rw [hnp] at hn
        have ha : a = '/' := by simpa using hn
        subst ha
        rfl
    · rw [Bool.not_eq_true'] at pany ⊢
      have hall := any_false_forall _ _ pany
      apply List.any_eq_false.mpr
      intro c hc
      rcases normPathCs_mem path.data c hc with hin | rfl
      · simp [hall c hin]
      · decide
  | false =>
    simp only [Bool.false_eq_true, if_false] at hwf
    simp only [Bool.and_eq_true] at hwf
    obtain ⟨⟨⟨sch, low⟩, qry⟩, ⟨⟨⟨nspec, hhost⟩, hport⟩, pany⟩⟩ := hwf
    have hq : ∀ q, query = some q → '#' ∉ q.data := by
      cases query with
      | none => intro q hqe; exact Option.noConfusion hqe
      | some q0 =>
        intro q hqe
        have hq0 : q0 = q := Option.some.inj hqe
        subst hq0
        exact not_mem_of_contains_false _ _ qry
    unfold normRecord
    dsimp only
    simp only [Bool.false_eq_true, if_false]
    unfold wfURL
    dsimp only
    simp only [Bool.false_eq_true, if_false]
    simp only [Bool.and_eq_true]
    refine ⟨⟨⟨sch, low⟩, ?_⟩, ⟨⟨⟨nspec, hhost⟩, hport⟩, pany⟩⟩
    cases hfq : filterQuery query with
    | none => rfl
    | some q' =>
      have hnh := filterQuery_no_hash query hq q' hfq
      dsimp only
      rw [contains_false_of_not_mem _ _ hnh]
      rfl

theorem normRecord_idem (r : URLRec)
    (hww : "www.".data.isPrefixOf (normHost r.host).data = false) :
    normRecord (normRecord r) = normRecord r := by
  obtain ⟨scheme, af, host, port, path, query, frag⟩ := r
  cases af with
  | true =>
    unfold normRecord
    dsimp only
    simp only [if_true]
    dsimp only at hww
    rw [normHost_idem host hww, normPathCs_idem path.data, filterQuery_idem query]
  | false =>
    unfold normRecord
    dsimp only
    simp only [Bool.false_eq_true, if_false]
    rw [filterQuery_idem query]


/-- Claim C5 (corrected): `normalizeUrl` is idempotent on every unparseable
input and on every parseable input whose canonical host does not still start
with `www.`; a doubled `www.` label defeats idempotence because the
canonicalizer strips only one `www.` prefix per pass. -/
theorem canonical_idem (u : String) (h : canonIdemOK u = true) :
    normalizeUrl (normalizeUrl u) = normalizeUrl u := by
  cases hp : parseURL u with
  | none =>
    have h1 : normalizeUrl u = u := by
      unfold normalizeUrl
      rw [hp]
    rw [h1]
    exact h1
  | some r =>
    have hwf := parse_wf hp
    have h1 : normalizeUrl u = serializeURL (normRecord r) := by
      unfold normalizeUrl
      rw [hp]
    have hwf2 := normRecord_wf hwf
    have h2 := serialize_parse hwf2
    have hww : "www.".data.isPrefixOf (normHost r.host).data = false := by
      unfold canonIdemOK at h
      rw [hp] at h
      rw [Bool.not_eq_true'] at h
      exact h
    have h3 := normRecord_idem r hww
    rw [h1]
    have h4 : normalizeUrl (serializeURL (normRecord r)) =
        serializeURL (normRecord (normRecord r)) := by
      unfold normalizeUrl
      rw [h2]
    rw [h4, h3]

/-- The canonicalizer is NOT idempotent on every URL: a host with a doubled
`www.` label loses one `www.` per pass. -/
theorem canonical_idem_cex :
    normalizeUrl (normalizeUrl "https://www.www.ex.com/") ≠
      normalizeUrl "https://www.www.ex.com/" := by decide

/-- Witness: `canonical_idem` applies to a concrete mixed-case URL. -/
theorem canonical_idem_witness :
    canonIdemOK "https://www.EX.com/a/" = true ∧
      normalizeUrl (normalizeUrl "https://www.EX.com/a/") =
        normalizeUrl "https://www.EX.com/a/" :=
  ⟨by decide, canonical_idem "https://www.EX.com/a/" (by decide)⟩


/-- In a well-formed record the authority flag agrees with the scheme being
special. -/
theorem wfURL_special (r : URLRec) (hwf : wfURL r = true) :
    specialSchemes.contains r.scheme = r.authorityForm := by
  obtain ⟨scheme, af, host, port, path, query, frag⟩ := r
  unfold wfURL at hwf
  dsimp only at hwf
  cases af with
  | true =>
    simp only [if_true] at hwf
    simp only [Bool.and_eq_true] at hwf
    exact hwf.2.1.1.1.1.1
  | false =>
    simp only [Bool.false_eq_true, if_false] at hwf
    simp only [Bool.and_eq_true] at hwf
    have hn := hwf.2.1.1.1
    rw [Bool.not_eq_true'] at hn
    exact hn

/-- In a well-formed authority record the host is nonempty. -/
theorem wfURL_host_ne (r : URLRec) (hwf : wfURL r = true)
    (haf : r.authorityForm = true) : r.host.data ≠ [] := by
  obtain ⟨scheme, af, host, port, path, query, frag⟩ := r
  dsimp only at haf
  subst haf
  unfold wfURL at hwf
  dsimp only at hwf
  simp only [if_true] at hwf
  simp only [Bool.and_eq_true] at hwf
  have hn := hwf.2.1.1.1.1.2
  rw [Bool.not_eq_true'] at hn
  exact isEmpty_false_ne_nil _ hn

theorem isPrefixOf_append_self (l1 l2 : List Char) : l1.isPrefixOf (l1 ++ l2) = true := by
  induction l1 with
  | nil => simp
  | cons a t ih =>
    simp only [List.cons_append, List.isPrefixOf, beq_self_eq_true, Bool.true_and]
    exact ih

theorem www_isPrefixOf_append (l : List Char) :
    "www.".data.isPrefixOf ("www.".data ++ l) = true :=
  isPrefixOf_append_self "www.".data l

theorem www_drop_append (l : List Char) : ("www.".data ++ l).drop 4 = l := rfl

/-- `normHost` sends two hosts to the same string when they agree up to
letter case and at most one extra leading `www.` label, provided the
lower-cased base host does not itself start with `www.`. -/
theorem normHost_congr (h1 h2 : String)
    (hnw : "www.".data.isPrefixOf (h1.data.map lowerChar) = false)
    (hne : h1.data ≠ [])
    (hr : h2.data.map lowerChar = h1.data.map lowerChar ∨
          h2.data.map lowerChar = "www.".data ++ h1.data.map lowerChar) :
    normHost h2 = normHost h1 := by
  have hmape : (h1.data.map lowerChar).isEmpty = false := by
    cases hd : h1.data with
    | nil => exact absurd hd hne
    | cons a t => rfl
  have e1 : normHost h1 = String.mk (h1.data.map lowerChar) := by
    unfold normHost
    dsimp only
    rw [hnw]
    simp only [Bool.false_eq_true, if_false]
    rw [hmape]
    simp only [Bool.false_eq_true, if_false]
  rw [e1]
  rcases hr with he | he
  · unfold normHost
    dsimp only
    rw [he, hnw]
    simp only [Bool.false_eq_true, if_false]
    rw [hmape]
    simp only [Bool.false_eq_true, if_false]
  · unfold normHost
    dsimp only
    rw [he, www_isPrefixOf_append]
    simp only [if_true]
    rw [www_drop_append, hmape]
    simp only [Bool.false_eq_true, if_false]

/-- Appending one `'/'` to a path never changes the collapsed, right-trimmed
form. -/
theorem dropLast_collapse_append_slash (p : List Char) :
    dropLastSlash (collapseSlashes (p ++ ['/'])) = dropLastSlash (collapseSlashes p) := by
  induction p with
  | nil => rfl
  | cons a rest ih =>
    cases rest with
    | nil =>
      show dropLastSlash (collapseSlashes [a, '/']) = dropLastSlash (collapseSlashes [a])
      rw [collapseSlashes_cons_cons, collapseSlashes_single, collapseSlashes_single]
      by_cases ha : a = '/'
      · rw [if_pos ⟨ha, rfl⟩]
        subst ha
        rfl
      · rw [if_neg (fun hc => ha hc.1)]
        rw [dropLastSlash_cons_cons, dropLastSlash_single, dropLastSlash_single]
        rw [if_pos rfl, if_neg ha]
    | cons b rest2 =>
      show dropLastSlash (collapseSlashes (a :: b :: (rest2 ++ ['/']))) =
        dropLastSlash (collapseSlashes (a :: b :: rest2))
      rw [collapseSlashes_cons_cons, collapseSlashes_cons_cons]
      simp only [List.cons_append] at ih
      by_cases hab : a = '/' ∧ b = '/'
      · rw [if_pos hab, if_pos hab]
        exact ih
      · rw [if_neg hab, if_neg hab]
        obtain ⟨t1, ht1⟩ := collapse_cons_shape b (rest2 ++ ['/'])
        obtain ⟨t2, ht2⟩ := collapse_cons_shape b rest2
        rw [ht1, ht2, dropLastSlash_cons_cons, dropLastSlash_cons_cons, ← ht1, ← ht2]
        rw [ih]

theorem normPathCs_append_slash (p : List Char) :
    normPathCs (p ++ ['/']) = normPathCs p := by
  unfold normPathCs
  dsimp only
  rw [dropLast_collapse_append_slash]

/-- `filterQuery` only sees the kept (non-tracking) key/value pairs of a
nonempty query. -/
theorem filterQuery_congr (q1 q2 : String) (h1 : q1 ≠ "") (h2 : q2 ≠ "")
    (hk : (parseQP q1.data).filter (fun kv => !(isTrackingKey kv.1)) =
          (parseQP q2.data).filter (fun kv => !(isTrackingKey kv.1))) :
    filterQuery (some q1) = filterQuery (some q2) := by
  unfold filterQuery
  dsimp only
  rw [if_neg h1, if_neg h2, hk]

/-- Claim C6 (corrected): canonicalization identifies two parseable URLs that
differ only in the normalized respects - scheme and host letter case, at most
one extra leading `www.` label, one extra trailing slash, extra tracking query
parameters, and the fragment - provided the lower-cased base host does not
itself begin with `www.` (without that proviso the identification fails,
because only one `www.` is stripped per pass). -/
theorem canonical_equiv (u1 u2 : String) (r1 r2 : URLRec)
    (hp1 : parseURL u1 = some r1) (hp2 : parseURL u2 = some r2)
    (haf : r1.authorityForm = true)
    (hs : r1.scheme = r2.scheme)
    (hport : r1.port = r2.port)
    (hnw : "www.".data.isPrefixOf (r1.host.data.map lowerChar) = false)
    (hh : r2.host.data.map lowerChar = r1.host.data.map lowerChar ∨
          r2.host.data.map lowerChar = "www.".data ++ r1.host.data.map lowerChar)
    (hpath : r2.path.data = r1.path.data ∨ r2.path.data = r1.path.data ++ ['/'])
    (hq : r1.query = r2.query ∨
          ∃ q1 q2, r1.query = some q1 ∧ r2.query = some q2 ∧ q1 ≠ "" ∧ q2 ≠ "" ∧
            (parseQP q1.data).filter (fun kv => !(isTrackingKey kv.1)) =
              (parseQP q2.data).filter (fun kv => !(isTrackingKey kv.1))) :
    normalizeUrl u1 = normalizeUrl u2 := by
  have hwf1 := parse_wf hp1
  have hwf2 := parse_wf hp2
  have hsp1 := wfURL_special r1 hwf1
  have hsp2 := wfURL_special r2 hwf2
  rw [haf] at hsp1
  rw [hs] at hsp1
  have haf2 : r2.authorityForm = true := hsp2.symm.trans hsp1
  have hne1 := wfURL_host_ne r1 hwf1 haf
  have eh : normHost r2.host = normHost r1.host := normHost_congr r1.host r2.host hnw hne1 hh
  have ep : normPathCs r2.path.data = normPathCs r1.path.data := by
    rcases hpath with he | he
    · rw [he]
    · rw [he, normPathCs_append_slash]
  have eq2 : filterQuery r1.query = filterQuery r2.query := by
    rcases hq with he | ⟨x1, x2, hx1, hx2, hxe1, hxe2, hk⟩
    · rw [he]
    · rw [hx1, hx2]
      exact filterQuery_congr x1 x2 hxe1 hxe2 hk
  have hrec : normRecord r1 = normRecord r2 := by
    unfold normRecord
    rw [haf, haf2]
    simp only [if_true]
    rw [eh, ep, eq2, hs, hport]
  unfold normalizeUrl
  rw [hp1, hp2]
  dsimp only
  rw [hrec]

/-- Canonicalization does NOT identify every pair differing only in a leading
`www.` label: with a doubled label only one `www.` is stripped. -/
theorem canonical_equiv_cex :
    normalizeUrl "https://www.www.ex.com/" ≠ normalizeUrl "https://www.ex.com/" := by
  decide

/-- Witness: `canonical_equiv` applies to the spec's concrete pair. -/
theorem canonical_equiv_witness :
    normalizeUrl "https://ex.com/a?id=1" =
      normalizeUrl "https://EX.com/a/?utm_source=x&id=1" :=
  canonical_equiv "https://ex.com/a?id=1" "https://EX.com/a/?utm_source=x&id=1"
    ⟨"https", true, "ex.com", none, "/a", some "id=1", none⟩
    ⟨"https", true, "EX.com", none, "/a/", some "utm_source=x&id=1", none⟩
    (by decide) (by decide) rfl rfl rfl (by decide)
    (Or.inl (by decide)) (Or.inr (by decide))
    (Or.inr ⟨"id=1", "utm_source=x&id=1", rfl, rfl, by decide, by decide, by decide⟩)

end Crawler
